import Mathlib

/-!
# Verification of the Maze (Labyrinth) game-state and board engine

A shallow embedding of the core of the Maze repository
(`Maze/Common/tile.py`, `Maze/Common/board.py`, `Maze/Common/state.py`,
`Maze/Referee/referee.py`) in Lean 4, together with proofs about the
claims of its specification.

Modelling conventions:
* Python `int` is `Int` (Python `%` and `//` with a positive divisor agree
  with `Int.emod` / `Int.ediv`, which both give a nonnegative remainder).
* A Python `dict` keyed by coordinates is an `Option`-valued function
  `Coord → Option Tile`; `d.get(k)` is application, `k in d` is `isSome`.
* Python `dict`s keyed by player colors (insertion-ordered) are
  association lists `List (Color × α)`; `OrderedDict` iteration order is
  the list order.
* A Python exception is the `Except.error` case of an error enumeration,
  tagged with the exception class being raised.
* The two `GameState` subclasses (`RestrictedGameState`,
  `RefereeGameState`) are modelled as one structure with a `variant`
  tag; each method dispatches on the tag exactly as the subclass
  overrides do.
-/

namespace Maze

/-- Model of the gem enumeration of `gem.py` (a closed set of named gems);
only equality of gems matters to the engine, so gems are numbered. -/
abbrev Gem := Nat

/-- `utils.Coord`: a `(col, row)` coordinate pair, `(0, 0)` top left. -/
structure Coord where
  col : Int
  row : Int
deriving DecidableEq, Repr

/-- Player colors are keyed by their JSON string form in the state's
ordered dictionaries. -/
abbrev Color := String

/-- The exception classes raised by the embedded code
(`ValueError`/`IndexError`/`KeyError` are Python built-ins, the rest are
declared in `board.py` and `state.py`). -/
inductive Err where
  | valueError
  | indexError
  | keyError
  | shiftNotAllowed
  | undoNotAllowed
  | offroading
  | zeroMovement
  | turnContractViolation
  | secretAccess
  | playerListModification
  | noMorePlayers
deriving DecidableEq, Repr

/-- `tile.Direction`: one of the four cardinal directions. -/
inductive Direction where
  | up
  | right
  | down
  | left
deriving DecidableEq, Repr

/-- The change in x-position for one unit of travel (`Direction.dx`). -/
def Direction.dx : Direction → Int
  | .up => 0
  | .right => 1
  | .down => 0
  | .left => -1

/-- The change in y-position for one unit of travel (`Direction.dy`). -/
def Direction.dy : Direction → Int
  | .up => -1
  | .right => 0
  | .down => 1
  | .left => 0

/-- Index of a direction in the `all_directions` list
`[UP, RIGHT, DOWN, LEFT]` used by `Direction.rotated`. -/
def Direction.idx : Direction → Int
  | .up => 0
  | .right => 1
  | .down => 2
  | .left => 3

/-- Inverse of `Direction.idx` (list indexing into `all_directions`;
the argument is always `emod 4`-reduced, so the catch-all is unreachable). -/
def Direction.ofIdx (n : Int) : Direction :=
  if n = 0 then .up
  else if n = 1 then .right
  else if n = 2 then .down
  else .left

/-- `Direction.rotated`: the direction after `rotation` clockwise
quarter turns, computed as `all_directions[(start + rotation) % 4]`.
(The Python body never raises despite its docstring; `%` makes the index
valid for every integer.) -/
def Direction.rotated (d : Direction) (rotation : Int) : Direction :=
  Direction.ofIdx ((d.idx + rotation) % 4)

/-- `Direction.flip`: the opposite direction, `rotated 2`. -/
def Direction.flip (d : Direction) : Direction :=
  d.rotated 2

/-- `Direction.is_vertical`: true for `UP` and `DOWN`. -/
def Direction.isVertical : Direction → Bool
  | .up => true
  | .down => true
  | _ => false

/-- The members of the `Direction` enum in declaration order. -/
def directionList : List Direction :=
  [.up, .right, .down, .left]

/-- `tile.TileShape`: the four canonical tile shapes. -/
inductive TileShape where
  | line
  | corner
  | tee
  | cross
deriving DecidableEq, Repr

/-- `TileShape.connected_directions`: the directions a canonical
(rotation 0) shape points in. -/
def TileShape.connectedDirections : TileShape → Finset Direction
  | .line => {.up, .down}
  | .corner => {.up, .right}
  | .tee => {.right, .down, .left}
  | .cross => {.up, .right, .down, .left}

/-- `tile.Tile`: shape, rotation (0..3 for constructor-made tiles) and a
min/max-normalized gem pair. -/
structure Tile where
  shape : TileShape
  rotation : Int
  gems : Gem × Gem
deriving DecidableEq, Repr

/-- The `Tile` constructor: rejects rotations outside `0..3` with
`ValueError` and stores the gems as a `(min, max)` pair. -/
def Tile.make (shape : TileShape) (rotation : Int) (gems : Gem × Gem) : Except Err Tile :=
  if rotation < 0 ∨ rotation > 3 then .error .valueError
  else .ok ⟨shape, rotation, (min gems.1 gems.2, max gems.1 gems.2)⟩

/-- `Tile.rotate`: a copy of the tile with a new rotation, going through
the constructor (hence the `ValueError` check). -/
def Tile.rotate (t : Tile) (newRotation : Int) : Except Err Tile :=
  Tile.make t.shape newRotation t.gems

/-- `Tile.connected_directions` via `_connected_direction_map`: the
canonical direction set of the shape, each rotated by the tile's
rotation.  (The Python table is keyed by rotations 0..3; `rotated` is
`emod 4`-periodic, so this formula agrees with it on those keys.) -/
def Tile.connectedDirections (t : Tile) : Finset Direction :=
  t.shape.connectedDirections.image (·.rotated t.rotation)

/-- `board.BoardEdit`: the coordinate remapping of one shift — moved
tiles (`replacements`, a coordinate dict) and dropped tiles
(`deletions`, a coordinate set). -/
structure BoardEdit where
  replacements : Coord → Option Coord
  deletions : Finset Coord

/-- `board.Board`: a `width × height` grid of tiles.  The tile dict is
an `Option`-valued function; the class invariant that the dict holds
exactly the rectangle's keys is `Board.Valid` below. -/
structure Board where
  width : Nat
  height : Nat
  tiles : Coord → Option Tile

/-- The in-bounds test of `Board.assert_in_bounds`. -/
abbrev Board.inBounds (b : Board) (c : Coord) : Prop :=
  0 ≤ c.col ∧ c.col < (b.width : Int) ∧ 0 ≤ c.row ∧ c.row < (b.height : Int)

/-- `Board.assert_in_bounds`: `IndexError` when outside the rectangle. -/
def Board.assertInBounds (b : Board) (c : Coord) : Except Err Unit :=
  if b.inBounds c then .ok () else .error .indexError

/-- `Board.is_moveable_row_or_column`: even indices are moveable. -/
abbrev isMoveable (i : Int) : Prop :=
  i % 2 = 0

/-- The keys of the board's tile dict in iteration order (row-major over
the rectangle; validity makes the dict total on exactly these). -/
def Board.coordList (b : Board) : List Coord :=
  (List.range b.height).flatMap fun r =>
    (List.range b.width).map fun c : Nat => ⟨(c : Int), (r : Int)⟩

/-- The constructor invariants of `Board.__init__` relevant to the
engine: positive dimensions, the tile dict total on exactly the
rectangle, and pairwise-distinct (already normalized) gem pairs. -/
def Board.Valid (b : Board) : Prop :=
  0 < b.width ∧ 0 < b.height ∧
    (∀ c : Coord, (b.tiles c).isSome ↔ b.inBounds c) ∧
    (∀ c c' : Coord, c ≠ c' → ∀ t t' : Tile,
      b.tiles c = some t → b.tiles c' = some t' → t.gems ≠ t'.gems)

/-- `Board.get_valid_insert_locations`: the moveable edge coordinates at
which a shift travelling in `direction` may insert. -/
def Board.getValidInsertLocations (b : Board) (direction : Direction) : Finset Coord :=
  if direction.isVertical then
    let row : Int := if direction = .down then 0 else (b.height : Int) - 1
    if ¬ isMoveable row then ∅
    else ((Finset.range b.width).filter fun c : Nat => isMoveable (c : Int)).image
      fun c : Nat => (⟨(c : Int), row⟩ : Coord)
  else
    let col : Int := if direction = .right then 0 else (b.width : Int) - 1
    if ¬ isMoveable col then ∅
    else ((Finset.range b.height).filter fun r : Nat => isMoveable (r : Int)).image
      fun r : Nat => (⟨col, (r : Int)⟩ : Coord)

/-- `Board.assert_valid_shift_and_insert`: bounds check (`IndexError`),
fixed row/column check (`ShiftNotAllowedError`), then membership in the
valid insert locations (`ValueError`). -/
def Board.assertValidShiftAndInsert (b : Board) (c : Coord) (direction : Direction) :
    Except Err Unit := do
  b.assertInBounds c
  if ¬ (isMoveable c.col ∧ isMoveable c.row) then .error .shiftNotAllowed
  else if c ∉ b.getValidInsertLocations direction then .error .valueError
  else .ok ()

/-- The coordinate dropped off the board by `Board._slide_row`. -/
def Board.rowDroppedCoord (b : Board) (whichRow : Int) (direction : Direction) : Coord :=
  if direction = .left then ⟨0, whichRow⟩ else ⟨(b.width : Int) - 1, whichRow⟩

/-- The coordinate dropped off the board by `Board._slide_column`. -/
def Board.colDroppedCoord (b : Board) (whichCol : Int) (direction : Direction) : Coord :=
  if direction = .up then ⟨whichCol, 0⟩ else ⟨whichCol, (b.height : Int) - 1⟩

/-- `Board._slide_row`: slide row `whichRow` by `direction.dx`, returning
the new tile dict, the dropped tile (`self.tiles[dropped_coord]`, `none`
modelling the `KeyError` case) and the `BoardEdit`.  The Python dict
comprehension keys each surviving tile by `replacements.get(c, c)`; the
returned function is that comprehension read from the new key `k` (the
unique contributing old key is `(k.col - dx, whichRow)` for keys in the
slid row, and `k` itself elsewhere). -/
def Board.slideRow (b : Board) (whichRow : Int) (direction : Direction) :
    (Coord → Option Tile) × Option Tile × BoardEdit :=
  let dropped := b.rowDroppedCoord whichRow direction
  let dx := direction.dx
  let repl : Coord → Option Coord := fun c =>
    if c.row = whichRow ∧ 0 ≤ c.col ∧ c.col < (b.width : Int) ∧
        0 ≤ c.col + dx ∧ c.col + dx < (b.width : Int)
    then some ⟨c.col + dx, whichRow⟩ else none
  let newTiles : Coord → Option Tile := fun k =>
    if k.row = whichRow then
      if 0 ≤ k.col ∧ k.col < (b.width : Int) ∧
          0 ≤ k.col - dx ∧ k.col - dx < (b.width : Int)
      then b.tiles ⟨k.col - dx, whichRow⟩ else none
    else b.tiles k
  (newTiles, b.tiles dropped, ⟨repl, {dropped}⟩)

/-- `Board._slide_column`: the column analogue of `Board.slideRow`. -/
def Board.slideColumn (b : Board) (whichCol : Int) (direction : Direction) :
    (Coord → Option Tile) × Option Tile × BoardEdit :=
  let dropped := b.colDroppedCoord whichCol direction
  let dy := direction.dy
  let repl : Coord → Option Coord := fun c =>
    if c.col = whichCol ∧ 0 ≤ c.row ∧ c.row < (b.height : Int) ∧
        0 ≤ c.row + dy ∧ c.row + dy < (b.height : Int)
    then some ⟨whichCol, c.row + dy⟩ else none
  let newTiles : Coord → Option Tile := fun k =>
    if k.col = whichCol then
      if 0 ≤ k.row ∧ k.row < (b.height : Int) ∧
          0 ≤ k.row - dy ∧ k.row - dy < (b.height : Int)
      then b.tiles ⟨whichCol, k.row - dy⟩ else none
    else b.tiles k
  (newTiles, b.tiles dropped, ⟨repl, {dropped}⟩)

/-- `Board.with_tiles`: rebuild the board through `Board.__init__`,
which re-validates the dimensions, the absence of holes in the
rectangle, and gem-pair uniqueness (each a `ValueError`). -/
def Board.withTiles (b : Board) (newTiles : Coord → Option Tile) : Except Err Board :=
  if b.width = 0 ∨ b.height = 0 then .error .valueError
  else if ¬ b.coordList.all (fun c => (newTiles c).isSome) then .error .valueError
  else if ¬ (b.coordList.filterMap fun c => (newTiles c).map (·.gems)).Nodup then
    .error .valueError
  else .ok ⟨b.width, b.height, newTiles⟩

/-- `Board.slide_and_insert_tile`: validate, slide the row or column,
read the dropped tile, insert `tile` at `c`, and rebuild the board. -/
def Board.slideAndInsertTile (b : Board) (c : Coord) (direction : Direction) (tile : Tile) :
    Except Err (Board × Tile × BoardEdit) := do
  b.assertValidShiftAndInsert c direction
  let (newTiles, droppedTile, edit) :=
    if direction.isVertical then b.slideColumn c.col direction
    else b.slideRow c.row direction
  match droppedTile with
  | none => .error .keyError
  | some ejected => do
    let withInsert : Coord → Option Tile := fun k =>
      if k = c then some tile else newTiles k
    let newBoard ← b.withTiles withInsert
    .ok (newBoard, ejected, edit)

/-- `Board._neighbors` (with `Board._adjacent_tiles` inlined): the
reachable immediate neighbors of a cell — cells one step away along a
direction of the cell's own tile whose tile points back.  The Python
code iterates the tile's direction set; the result is order-insensitive,
so the fixed enum order is used. -/
def Board.neighbors (b : Board) (x : Coord) : List Coord :=
  match b.tiles x with
  | none => []
  | some t =>
    (directionList.filter fun d => d ∈ t.connectedDirections).filterMap fun d =>
      let y : Coord := ⟨x.col + d.dx, x.row + d.dy⟩
      match b.tiles y with
      | none => none
      | some t2 => if d.flip ∈ t2.connectedDirections then some y else none

/-- The inner `for neighbor in self._neighbors(current)` loop of
`Board.reachable_destinations`: push each not-yet-seen, not-yet-reached
neighbor onto the frontier stack and mark it seen. -/
def pushNeighbors (nbrs : List Coord) (frontier : List Coord)
    (reachable seen : Finset Coord) : List Coord × Finset Coord :=
  match nbrs with
  | [] => (frontier, seen)
  | y :: ys =>
    if y ∉ reachable ∧ y ∉ seen then
      pushNeighbors ys (y :: frontier) reachable (insert y seen)
    else
      pushNeighbors ys frontier reachable seen

/-- The `while len(frontier) > 0` loop of
`Board.reachable_destinations`, with an explicit fuel parameter.  The
source's loop terminates because no position enters the frontier twice;
`2 * width * height + 1` fuel is enough for every valid board (proved
below), so the fuel-exhausted branch is unreachable there. -/
def dfs (b : Board) : Nat → List Coord → Finset Coord → Finset Coord → Finset Coord
  | _, [], reachable, _ => reachable
  | 0, _ :: _, reachable, _ => reachable
  | fuel + 1, current :: rest, reachable, seen =>
    let reachable' := insert current reachable
    let pushed := pushNeighbors (b.neighbors current) rest reachable' seen
    dfs b fuel pushed.1 reachable' pushed.2

/-- `Board.reachable_destinations`: bounds-check the start, then
depth-first search from it. -/
def Board.reachableDestinations (b : Board) (startCoord : Coord) :
    Except Err (Finset Coord) := do
  b.assertInBounds startCoord
  .ok (dfs b (2 * b.width * b.height + 1) [startCoord] ∅ ∅)

/-- The coordinate one unit of travel away from `k` in direction `d`
(the `Coord(col + dx, row + dy)` idiom of `board.py`). -/
def stepCoord (k : Coord) (d : Direction) : Coord :=
  ⟨k.col + d.dx, k.row + d.dy⟩

/-- Whether `k` lies on the row/column that a shift travelling in `d`
inserted at `c` slides. -/
def sameLine (c k : Coord) (d : Direction) : Prop :=
  if d.isVertical then k.col = c.col else k.row = c.row

/-- The coordinate whose tile a shift inserted at `c` travelling in `d`
drops off the board (the far-edge cell of the slid line). -/
def Board.droppedOf (b : Board) (c : Coord) (d : Direction) : Coord :=
  if d.isVertical then b.colDroppedCoord c.col d else b.rowDroppedCoord c.row d

/-- The tile function after sliding row `c.row` in horizontal direction
`d` and inserting `tile` at `c` (the `new_tiles[which_coord] = tile`
update over `_slide_row`'s dict). -/
def Board.slidRowInsert (b : Board) (c : Coord) (d : Direction) (tile : Tile) :
    Coord → Option Tile := fun k =>
  if k = c then some tile
  else if k.row = c.row then
    if 0 ≤ k.col ∧ k.col < (b.width : Int) ∧
        0 ≤ k.col - d.dx ∧ k.col - d.dx < (b.width : Int)
    then b.tiles ⟨k.col - d.dx, c.row⟩ else none
  else b.tiles k

/-- The tile function after sliding column `c.col` in vertical direction
`d` and inserting `tile` at `c` (the `new_tiles[which_coord] = tile`
update over `_slide_column`'s dict). -/
def Board.slidColInsert (b : Board) (c : Coord) (d : Direction) (tile : Tile) :
    Coord → Option Tile := fun k =>
  if k = c then some tile
  else if k.col = c.col then
    if 0 ≤ k.row ∧ k.row < (b.height : Int) ∧
        0 ≤ k.row - d.dy ∧ k.row - d.dy < (b.height : Int)
    then b.tiles ⟨c.col, k.row - d.dy⟩ else none
  else b.tiles k

/-- The contract of a successful `slide_and_insert_tile` at a valid
insert location: the call returns ok with a same-sized board whose tile
dict is total on the rectangle, the inserted tile sits at the insert
location, the ejected tile is the one the source board held at the
far-edge cell, tiles off the slid line are untouched while every tile on
it moved one step in the travel direction, and the `BoardEdit` deletes
exactly the far-edge cell and remaps exactly the cells of the line that
stayed on the board. -/
def SlideSpec (b : Board) (c : Coord) (d : Direction) (tile : Tile)
    (res : Except Err (Board × Tile × BoardEdit)) : Prop :=
  ∃ b' ejected edit, res = .ok (b', ejected, edit) ∧
    b'.width = b.width ∧ b'.height = b.height ∧
    (∀ k, (b'.tiles k).isSome = true ↔ b.inBounds k) ∧
    b'.tiles c = some tile ∧
    b.tiles (b.droppedOf c d) = some ejected ∧
    (∀ k, ¬ sameLine c k d → b'.tiles k = b.tiles k) ∧
    (∀ k, sameLine c k d → b.inBounds k → b.inBounds (stepCoord k d) →
      b'.tiles (stepCoord k d) = b.tiles k) ∧
    edit.deletions = {b.droppedOf c d} ∧
    (∀ k, sameLine c k d → b.inBounds k → b.inBounds (stepCoord k d) →
      edit.replacements k = some (stepCoord k d)) ∧
    (∀ k, ¬ (sameLine c k d ∧ b.inBounds k ∧ b.inBounds (stepCoord k d)) →
      edit.replacements k = none)

/-- `state.ShiftOp`: a tile insertion with its row/column shift. -/
structure ShiftOp where
  insertLocation : Coord
  direction : Direction
deriving DecidableEq, Repr

/-- `ShiftOp.reverse`: the shift operation that would undo this one's
tile movements on `board`. -/
def ShiftOp.reverse (op : ShiftOp) (board : Board) : ShiftOp :=
  if op.direction.isVertical then
    let col := op.insertLocation.col
    let row : Int := if op.insertLocation.row = 0 then (board.height : Int) - 1 else 0
    ⟨⟨col, row⟩, op.direction.flip⟩
  else
    let col : Int := if op.insertLocation.col = 0 then (board.width : Int) - 1 else 0
    let row := op.insertLocation.row
    ⟨⟨col, row⟩, op.direction.flip⟩

/-- `state.PrevAction` (the union of `EmptyPrevAction`,
`PartialTurnPrevAction` and `CompleteTurnPrevAction`, tagged EMPTY /
PARTIAL_TURN / COMPLETE_TURN): `empty` is EMPTY, `midTurn` is a
PARTIAL_TURN holding the shift just made, `fullTurn` is a COMPLETE_TURN
holding the completed turn's shift. -/
inductive PrevAction where
  | empty
  | midTurn (shift : ShiftOp)
  | fullTurn (shift : ShiftOp)
deriving DecidableEq, Repr

/-- Whether a `PrevAction`'s kind is PARTIAL_TURN. -/
def PrevAction.isMidTurn : PrevAction → Bool
  | .midTurn _ => true
  | _ => false

/-- `PartialTurnPrevAction.complete`, on the union type. -/
def PrevAction.complete : PrevAction → PrevAction
  | .midTurn s => .fullTurn s
  | p => p

/-- `state.PlayerSecret`: a player's private information. -/
structure PlayerSecret where
  treasureLocation : Coord
  isGoingHome : Bool
  treasureCount : Nat
deriving DecidableEq, Repr

/-- `PlayerSecret.set_is_going_home`: mark going home, bump the count. -/
def PlayerSecret.setIsGoingHome (s : PlayerSecret) : PlayerSecret :=
  ⟨s.treasureLocation, true, s.treasureCount + 1⟩

/-- `PlayerSecret.set_new_goal`: new treasure goal, bump the count. -/
def PlayerSecret.setNewGoal (s : PlayerSecret) (newGoal : Coord) : PlayerSecret :=
  ⟨newGoal, false, s.treasureCount + 1⟩

/-- `state.PlayerState`: a player's public information (the RGB color
triple and display name play no role in the verified claims but are kept
for structural fidelity). -/
structure PlayerState where
  homeLocation : Coord
  location : Coord
  color : Int × Int × Int
  name : String
deriving DecidableEq, Repr

/-- `PlayerState.with_location`. -/
def PlayerState.withLocation (p : PlayerState) (newLocation : Coord) : PlayerState :=
  { p with location := newLocation }

/-- `PlayerState.move_with_board`: relocate per a `BoardEdit`, jumping
to `positionIfDeleted` if this player's tile was pushed off. -/
def PlayerState.moveWithBoard (p : PlayerState) (edit : BoardEdit)
    (positionIfDeleted : Coord) : PlayerState :=
  if p.location ∈ edit.deletions then p.withLocation positionIfDeleted
  else
    match edit.replacements p.location with
    | some newLoc => p.withLocation newLoc
    | none => p

/-- Which `GameState` subclass a state is: `RestrictedGameState` (with
its single secret owner, the `player_color` attribute) or
`RefereeGameState`. -/
inductive StateVariant where
  | restrictedView (owner : Color)
  | refereeView
deriving DecidableEq, Repr

/-- `state.GameState` (with its two subclasses folded into `variant`):
insertion-ordered player states, the visible player secrets, the spare
tile, the board, the previous-action tracker and the current player
index. -/
structure GameState where
  playerStates : List (Color × PlayerState)
  playerSecrets : List (Color × PlayerSecret)
  spareTile : Tile
  board : Board
  prevAction : PrevAction
  currentPlayerIndex : Nat
  variant : StateVariant

/-- Ordered-dict lookup (`d[k]` / `d.get(k)`), as used on the player
state and secret dictionaries. -/
def lookupA {β : Type} (l : List (Color × β)) (k : Color) : Option β :=
  match l with
  | [] => none
  | (k', v) :: rest => if k' = k then some v else lookupA rest k

/-- The dict merge `{**d, k: v}` for a key already present in `d`. -/
def updateA {β : Type} (l : List (Color × β)) (k : Color) (v : β) : List (Color × β) :=
  l.map fun p => if p.1 = k then (k, v) else p

/-- `GameState.player_colors` (the keys of `player_states` in order). -/
def GameState.playerColors (gs : GameState) : List Color :=
  gs.playerStates.map (·.1)

/-- `GameState.num_players`. -/
def GameState.numPlayers (gs : GameState) : Nat :=
  gs.playerStates.length

/-- The per-player loop of `GameState._validate_player_states`:
`IndexError` for an out-of-bounds location or home, `ValueError` for a
home on a moveable row or column. -/
def validatePlayerStatesList (board : Board) : List (Color × PlayerState) → Except Err Unit
  | [] => .ok ()
  | (_, p) :: rest => do
    board.assertInBounds p.location
    board.assertInBounds p.homeLocation
    if isMoveable p.homeLocation.col ∨ isMoveable p.homeLocation.row then
      .error .valueError
    else
      validatePlayerStatesList board rest

/-- The loop of `GameState._validate_player_secrets`: `IndexError` for
an out-of-bounds treasure location. -/
def validatePlayerSecretsList (board : Board) : List (Color × PlayerSecret) → Except Err Unit
  | [] => .ok ()
  | (_, s) :: rest => do
    board.assertInBounds s.treasureLocation
    validatePlayerSecretsList board rest

/-- `GameState.validate_spare_tile_gems`: the spare tile's gem pair must
differ from every board tile's (checked as one uniqueness pass over the
board's tiles plus the spare). -/
def validateSpareTileGems (board : Board) (spareTile : Tile) : Except Err Unit :=
  if ((board.coordList.filterMap fun c => (board.tiles c).map (·.gems)) ++
      [spareTile.gems]).Nodup then .ok ()
  else .error .valueError

/-- Whether two key lists have equal key sets (the
`set(player_secrets.keys()) != set(player_states.keys())` check). -/
def sameKeySet (l1 l2 : List Color) : Bool :=
  l1.all (· ∈ l2) && l2.all (· ∈ l1)

/-- `GameStateBuilder.build`: every state transition rebuilds the state
through the subclass constructor, re-running `GameState.__init__` (spare
gem uniqueness, player-state validation, index bounds — the base class's
secret validation call is commented out in the source) and then the
subclass checks (`RestrictedGameState`: exactly one secret whose owner
is a player, secret in bounds; `RefereeGameState`: secret keys equal
state keys, secrets in bounds).  On success the state is returned
unchanged (with the restricted owner re-derived from the secret dict's
single key, as `__init__` does). -/
def buildState (gs : GameState) : Except Err GameState :=
  match validateSpareTileGems gs.board gs.spareTile with
  | .error e => .error e
  | .ok _ =>
    if gs.playerStates.length < 1 then .error .valueError
    else
      match validatePlayerStatesList gs.board gs.playerStates with
      | .error e => .error e
      | .ok _ =>
        if ¬ gs.currentPlayerIndex < gs.playerStates.length then .error .indexError
        else
          match gs.variant with
          | .restrictedView _ =>
            if gs.playerSecrets.length ≠ 1 then .error .valueError
            else
              match validatePlayerSecretsList gs.board gs.playerSecrets with
              | .error e => .error e
              | .ok _ =>
                match gs.playerSecrets with
                | [(k, _)] =>
                  if (lookupA gs.playerStates k).isSome then
                    .ok { gs with variant := .restrictedView k }
                  else .error .keyError
                | _ => .error .valueError
          | .refereeView =>
            if ¬ sameKeySet (gs.playerSecrets.map (·.1)) (gs.playerStates.map (·.1)) then
              .error .valueError
            else
              match validatePlayerSecretsList gs.board gs.playerSecrets with
              | .error e => .error e
              | .ok _ => .ok gs

/-- `GameState.current_player_color`: `player_colors[index]`
(`IndexError` when out of range). -/
def GameState.currentPlayerColorE (gs : GameState) : Except Err Color :=
  match gs.playerColors.get? gs.currentPlayerIndex with
  | some c => .ok c
  | none => .error .indexError

/-- `GameState.current_player_state`: the current color's entry in
`player_states` (`KeyError` when missing). -/
def GameState.currentPlayerStateE (gs : GameState) : Except Err PlayerState := do
  let c ← gs.currentPlayerColorE
  match lookupA gs.playerStates c with
  | some p => .ok p
  | none => .error .keyError

/-- `can_get_player_secret`: the `RestrictedGameState` override permits
only the owner color; the `RefereeGameState` override permits any color
in the secret dict. -/
def GameState.canGetPlayerSecret (gs : GameState) (color : Color) : Bool :=
  match gs.variant with
  | .restrictedView owner => color = owner
  | .refereeView => (lookupA gs.playerSecrets color).isSome

/-- `get_player_secret`: the `RestrictedGameState` override raises
`SecretAccessError` unless the color is the owner, then looks the owner
up; the `RefereeGameState` override is a plain dict lookup (`KeyError`
when absent). -/
def GameState.getPlayerSecret (gs : GameState) (color : Color) : Except Err PlayerSecret :=
  match gs.variant with
  | .restrictedView owner =>
    if color = owner then
      match lookupA gs.playerSecrets owner with
      | some s => .ok s
      | none => .error .keyError
    else .error .secretAccess
  | .refereeView =>
    match lookupA gs.playerSecrets color with
    | some s => .ok s
    | none => .error .keyError

/-- `GameState.rotate_spare_tile`: `ValueError` unless `degrees` is a
multiple of 90, `TurnContractViolation` while the previous action is
PARTIAL, else rotate the spare by `degrees // 90` quarter turns mod 4. -/
def GameState.rotateSpareTile (gs : GameState) (degrees : Int) : Except Err GameState :=
  if degrees % 90 ≠ 0 then .error .valueError
  else if gs.prevAction.isMidTurn then .error .turnContractViolation
  else do
    let relativeRotation := degrees / 90
    let newRotation := (relativeRotation + gs.spareTile.rotation) % 4
    let newSpare ← gs.spareTile.rotate newRotation
    buildState { gs with spareTile := newSpare }

/-- `GameState.shift_tiles`: `TurnContractViolation` while PARTIAL;
`UndoNotAllowedError` when the previous action holds a shift equal to
`operation.reverse(board)`; otherwise slide-and-insert the spare,
relocate every player through the resulting `BoardEdit` (players pushed
off move to the insert location), and record `PARTIAL(operation)`. -/
def GameState.shiftTiles (gs : GameState) (operation : ShiftOp) : Except Err GameState :=
  if gs.prevAction.isMidTurn then .error .turnContractViolation
  else if (match gs.prevAction with
           | .empty => false
           | .midTurn s => operation.reverse gs.board == s
           | .fullTurn s => operation.reverse gs.board == s) then
    .error .undoNotAllowed
  else do
    let (newBoard, newSpare, edit) ←
      gs.board.slideAndInsertTile operation.insertLocation operation.direction gs.spareTile
    let newPlayers := gs.playerStates.map fun p =>
      (p.1, p.2.moveWithBoard edit operation.insertLocation)
    buildState { gs with
      playerStates := newPlayers
      spareTile := newSpare
      board := newBoard
      prevAction := .midTurn operation }

/-- `GameState.move_current_player`: bounds-check the destination, then
`TurnContractViolation` unless the previous action is PARTIAL,
`ZeroMovementError` for a no-op move, `OffroadingError` for an
unreachable destination, else move only the current player and record
the completed turn. -/
def GameState.moveCurrentPlayer (gs : GameState) (destCoord : Coord) : Except Err GameState := do
  gs.board.assertInBounds destCoord
  match gs.prevAction with
  | .midTurn s => do
    let color ← gs.currentPlayerColorE
    let st ← (match lookupA gs.playerStates color with
              | some p => .ok p
              | none => .error .keyError : Except Err PlayerState)
    if destCoord = st.location then .error .zeroMovement
    else do
      let reach ← gs.board.reachableDestinations st.location
      if destCoord ∉ reach then .error .offroading
      else
        let newPlayers := gs.playerStates.map fun p =>
          if p.1 = color then (p.1, p.2.withLocation destCoord) else p
        buildState { gs with playerStates := newPlayers, prevAction := .fullTurn s }
  | _ => .error .turnContractViolation

/-- `GameState.get_last_shift_op`: the previous action's shift, `None`
when there has not been one. -/
def GameState.getLastShiftOp (gs : GameState) : Option ShiftOp :=
  match gs.prevAction with
  | .empty => none
  | .midTurn s => some s
  | .fullTurn s => some s

/-- `GameState.get_legal_shift_ops`: empty while PARTIAL; otherwise
every insert location in every direction, minus the reverse of the
previous action's shift when there is one. -/
def GameState.getLegalShiftOps (gs : GameState) : Finset ShiftOp :=
  if gs.prevAction.isMidTurn then ∅
  else
    let allOps : Finset ShiftOp := directionList.foldl
      (fun acc d => acc ∪ (gs.board.getValidInsertLocations d).image
        fun c => (⟨c, d⟩ : ShiftOp)) ∅
    match gs.prevAction with
    | .empty => allOps
    | .midTurn s => allOps.erase (s.reverse gs.board)
    | .fullTurn s => allOps.erase (s.reverse gs.board)

/-- `GameState.get_legal_move_destinations`: reads the current player's
location, returns the empty set unless the previous action is PARTIAL,
else the reachable destinations minus the current location. -/
def GameState.getLegalMoveDestinations (gs : GameState) : Except Err (Finset Coord) := do
  let st ← gs.currentPlayerStateE
  if ¬ gs.prevAction.isMidTurn then .ok ∅
  else do
    let result ← gs.board.reachableDestinations st.location
    .ok (result.erase st.location)

/-- `eject_current_player`: `RestrictedGameState` always raises
`PlayerListModificationError`; `RefereeGameState` raises
`NoMorePlayersError` for a sole player, else removes the current
player's state and secret and wraps the index to 0 when it falls past
the shortened list. -/
def GameState.ejectCurrentPlayer (gs : GameState) : Except Err GameState :=
  match gs.variant with
  | .restrictedView _ => .error .playerListModification
  | .refereeView =>
    if gs.numPlayers = 1 then .error .noMorePlayers
    else do
      let color ← gs.currentPlayerColorE
      let newStates := gs.playerStates.filter fun p => p.1 ≠ color
      let newSecrets := gs.playerSecrets.filter fun p => p.1 ≠ color
      let newIndex :=
        if gs.currentPlayerIndex ≥ newStates.length then 0 else gs.currentPlayerIndex
      buildState { gs with
        playerStates := newStates
        playerSecrets := newSecrets
        currentPlayerIndex := newIndex }

/-- `eject_player`: `RestrictedGameState` always raises
`PlayerListModificationError`; `RefereeGameState` returns the state
unchanged for an absent color, raises `NoMorePlayersError` for a sole
player, else removes the player and adjusts the index (down by one when
an earlier player left; back to 0 when the current player was last in
order). -/
def GameState.ejectPlayer (gs : GameState) (color : Color) : Except Err GameState :=
  match gs.variant with
  | .restrictedView _ => .error .playerListModification
  | .refereeView =>
    if color ∉ gs.playerColors then .ok gs
    else if gs.numPlayers = 1 then .error .noMorePlayers
    else
      let newStates := gs.playerStates.filter fun p => p.1 ≠ color
      let newSecrets := gs.playerSecrets.filter fun p => p.1 ≠ color
      let ejectedIndex := gs.playerColors.indexOf color
      let newIndex :=
        if ejectedIndex < gs.currentPlayerIndex then gs.currentPlayerIndex - 1
        else if ejectedIndex = gs.currentPlayerIndex ∧
            gs.currentPlayerIndex ≥ newStates.length then 0
        else gs.currentPlayerIndex
      buildState { gs with
        playerStates := newStates
        playerSecrets := newSecrets
        currentPlayerIndex := newIndex }

/-- `GameState.set_current_player_new_goal`: a no-op state copy unless
the state can see the current player's secret and the player stands on
their treasure location; then mark going-home when the new goal is the
player's home, else install the new treasure goal (each bumping the
treasure count), and rebuild. -/
def GameState.setCurrentPlayerNewGoal (gs : GameState) (newGoal : Coord) :
    Except Err GameState := do
  let color ← gs.currentPlayerColorE
  if ¬ gs.canGetPlayerSecret color then .ok gs
  else do
    let st ← (match lookupA gs.playerStates color with
              | some p => .ok p
              | none => .error .keyError : Except Err PlayerState)
    let sec ← gs.getPlayerSecret color
    if st.location ≠ sec.treasureLocation then .ok gs
    else
      let newSecrets :=
        if newGoal = st.homeLocation then updateA gs.playerSecrets color sec.setIsGoingHome
        else updateA gs.playerSecrets color (sec.setNewGoal newGoal)
      buildState { gs with playerSecrets := newSecrets }

/-- `utils.squared_euclidean_distance`. -/
def squaredEuclideanDistance (coord1 coord2 : Coord) : Int :=
  (coord1.row - coord2.row) ^ 2 + (coord1.col - coord2.col) ^ 2

/-- `referee.order_by_game_progress`: the sort key (treasure count,
negated squared distance from the player's location to its active goal —
home when going home, else the treasure). -/
def orderByGameProgress (playerState : PlayerState) (playerSecret : PlayerSecret) :
    Int × Int :=
  let goalLocation :=
    if playerSecret.isGoingHome then playerState.homeLocation
    else playerSecret.treasureLocation
  ((playerSecret.treasureCount : Int),
    -(squaredEuclideanDistance playerState.location goalLocation))

/-- Python's `<` on two int pairs (lexicographic). -/
abbrev pairLt (a b : Int × Int) : Prop :=
  a.1 < b.1 ∨ (a.1 = b.1 ∧ a.2 < b.2)

/-- Python's `max` over a nonempty list of int pairs, given as head and
tail: keep the current maximum, replacing it on a strictly greater
element. -/
def pythonMax (m : Int × Int) (l : List (Int × Int)) : Int × Int :=
  l.foldl (fun acc x => if pairLt acc x then x else acc) m

/-- `AsyncReferee._check_winners`, reduced to the winner colors it
feeds `_outcome_with_winners`: pair every player color with its
progress key, keep the colors achieving the maximal key, and collapse
to the triggering player alone on a shared tie.  `stateOf`/`secretOf`
stand for `state.player_states[color]` / `state.get_player_secret(color)`
on the `RefereeGameState`, whose constructor guarantees both lookups
succeed for every color in `state.player_colors`. -/
def checkWinners (colors : List Color) (stateOf : Color → PlayerState)
    (secretOf : Color → PlayerSecret) (playerTriggerColor : Option Color) : List Color :=
  let playersWithProgress :=
    colors.map fun c => (c, orderByGameProgress (stateOf c) (secretOf c))
  match playersWithProgress.map (·.2) with
  | [] => []
  | k :: ks =>
    let maxGameProgress := pythonMax k ks
    let winners := (playersWithProgress.filter fun p => p.2 = maxGameProgress).map (·.1)
    match playerTriggerColor with
    | some t => if winners.length > 1 ∧ t ∈ winners then [t] else winners
    | none => winners

/-! ### Concrete sample data

Small constructor-valid boards and states used to witness the theorems
below on concrete inputs. -/

/-- A cross tile for cell `c` of the 3×3 sample board, carrying the gem
pair `(2k, 2k+1)` for `k = col + 3·row`, so all pairs are distinct. -/
def sampleTile (c : Coord) : Tile :=
  ⟨.cross, 0, ((2 * (c.col + 3 * c.row)).toNat, (2 * (c.col + 3 * c.row)).toNat + 1)⟩

/-- A 3×3 board of cross tiles (every cell connected to every
neighbor). -/
def sampleBoard : Board :=
  ⟨3, 3, fun c =>
    if 0 ≤ c.col ∧ c.col < 3 ∧ 0 ≤ c.row ∧ c.row < 3 then some (sampleTile c) else none⟩

/-- A spare tile whose gems are disjoint from the sample board's. -/
def sampleSpare : Tile :=
  ⟨.cross, 0, (100, 101)⟩

/-- A second spare with fresh gems, for states derived manually. -/
def sampleSpare2 : Tile :=
  ⟨.cross, 0, (102, 103)⟩

/-- Sample player red: home and location on the fixed tile (1, 1). -/
def samplePlayerRed : PlayerState :=
  ⟨⟨1, 1⟩, ⟨1, 1⟩, (255, 0, 0), "alice"⟩

/-- Sample player green, also at (1, 1). -/
def samplePlayerGreen : PlayerState :=
  ⟨⟨1, 1⟩, ⟨1, 1⟩, (0, 255, 0), "bob"⟩

/-- Sample secret: treasure at (1, 1) (where red stands), not yet going
home. -/
def sampleSecret : PlayerSecret :=
  ⟨⟨1, 1⟩, false, 0⟩

/-- A two-player `RefereeGameState` on the sample board, red to move. -/
def sampleRefState : GameState :=
  ⟨[("red", samplePlayerRed), ("green", samplePlayerGreen)],
   [("red", sampleSecret), ("green", sampleSecret)],
   sampleSpare, sampleBoard, .empty, 0, .refereeView⟩

/-- A one-player `RefereeGameState` on the sample board. -/
def sampleRefStateSolo : GameState :=
  ⟨[("red", samplePlayerRed)], [("red", sampleSecret)],
   sampleSpare, sampleBoard, .empty, 0, .refereeView⟩

/-- A `RestrictedGameState` owned by red on the sample board. -/
def sampleResState : GameState :=
  ⟨[("red", samplePlayerRed), ("green", samplePlayerGreen)],
   [("red", sampleSecret)],
   sampleSpare, sampleBoard, .empty, 0, .restrictedView "red"⟩

/-! ### Helper lemmas -/

theorem validatePlayerStatesList_no_undo (b : Board) (l : List (Color × PlayerState)) :
    validatePlayerStatesList b l ≠ .error .undoNotAllowed := by
  induction l with
  | nil => simp [validatePlayerStatesList]
  | cons p rest ih =>
    simp only [validatePlayerStatesList, Board.assertInBounds, bind, Except.bind]
    by_cases h1 : b.inBounds p.2.location
    · simp only [if_pos h1]
      by_cases h2 : b.inBounds p.2.homeLocation
      · simp only [if_pos h2]
        by_cases h3 : isMoveable p.2.homeLocation.col ∨ isMoveable p.2.homeLocation.row
        · rw [if_pos h3]
          simp
        · rw [if_neg h3]
          exact ih
      · simp [if_neg h2]
    · simp [if_neg h1]

theorem validatePlayerSecretsList_no_undo (b : Board) (l : List (Color × PlayerSecret)) :
    validatePlayerSecretsList b l ≠ .error .undoNotAllowed := by
  induction l with
  | nil => simp [validatePlayerSecretsList]
  | cons p rest ih =>
    simp only [validatePlayerSecretsList, Board.assertInBounds, bind, Except.bind]
    by_cases h1 : b.inBounds p.2.treasureLocation
    · simp [if_pos h1, ih]
    · simp [if_neg h1]

theorem buildState_master (gs : GameState) :
    (∃ e, buildState gs = .error e ∧ e ≠ .undoNotAllowed) ∨
    ((∃ k o, gs.variant = .restrictedView o ∧
        buildState gs = .ok { gs with variant := .restrictedView k }) ∨
      (gs.variant = .refereeView ∧ buildState gs = .ok gs)) ∧
      gs.currentPlayerIndex < gs.playerStates.length := by
  unfold buildState
  cases hsg : validateSpareTileGems gs.board gs.spareTile with
  | error e =>
    refine Or.inl ⟨e, rfl, ?_⟩
    simp only [validateSpareTileGems] at hsg
    split at hsg
    · cases hsg
    · cases hsg; simp
  | ok u =>
    by_cases h1 : gs.playerStates.length < 1
    · exact Or.inl ⟨.valueError, by simp [h1], by simp⟩
    · simp only [if_neg h1]
      cases hps : validatePlayerStatesList gs.board gs.playerStates with
      | error e =>
        refine Or.inl ⟨e, rfl, fun hc => ?_⟩
        exact validatePlayerStatesList_no_undo gs.board gs.playerStates (hc ▸ hps)
      | ok u2 =>
        by_cases h2 : ¬ gs.currentPlayerIndex < gs.playerStates.length
        · exact Or.inl ⟨.indexError, by simp [h2], by simp⟩
        · simp only [if_neg h2]
          push_neg at h2
          cases hv : gs.variant with
          | restrictedView o =>
            by_cases h3 : gs.playerSecrets.length ≠ 1
            · exact Or.inl ⟨.valueError, by simp [h3], by simp⟩
            · simp only [if_neg h3]
              cases hss : validatePlayerSecretsList gs.board gs.playerSecrets with
              | error e =>
                refine Or.inl ⟨e, rfl, fun hc => ?_⟩
                exact validatePlayerSecretsList_no_undo gs.board gs.playerSecrets (hc ▸ hss)
              | ok u3 =>
                rcases hsec : gs.playerSecrets with _ | ⟨⟨k, s⟩, _ | rest⟩
                · exact Or.inl ⟨.valueError, rfl, by simp⟩
                · by_cases h5 : (lookupA gs.playerStates k).isSome
                  · exact Or.inr ⟨Or.inl ⟨k, o, by trivial, by simp [h5]⟩, h2⟩
                  · exact Or.inl ⟨.keyError, by simp [h5], by simp⟩
                · exact Or.inl ⟨.valueError, rfl, by simp⟩
          | refereeView =>
            by_cases h4 : ¬ sameKeySet (gs.playerSecrets.map (·.1)) (gs.playerStates.map (·.1))
            · exact Or.inl ⟨.valueError, by simp [h4], by simp⟩
            · simp only [if_neg h4]
              cases hss : validatePlayerSecretsList gs.board gs.playerSecrets with
              | error e =>
                refine Or.inl ⟨e, rfl, fun hc => ?_⟩
                exact validatePlayerSecretsList_no_undo gs.board gs.playerSecrets (hc ▸ hss)
              | ok u3 => exact Or.inr ⟨Or.inr ⟨by trivial, rfl⟩, h2⟩

theorem buildState_ok {gs gs' : GameState} (h : buildState gs = .ok gs') :
    gs'.playerStates = gs.playerStates ∧ gs'.playerSecrets = gs.playerSecrets ∧
    gs'.spareTile = gs.spareTile ∧ gs'.board = gs.board ∧
    gs'.prevAction = gs.prevAction ∧ gs'.currentPlayerIndex = gs.currentPlayerIndex ∧
    gs.currentPlayerIndex < gs.playerStates.length := by
  rcases buildState_master gs with ⟨e, he, _⟩ | ⟨⟨k, o, hv, hb⟩ | ⟨hv, hb⟩, hidx⟩
  · rw [he] at h; cases h
  · rw [hb] at h; cases h; simp_all
  · rw [hb] at h; cases h; simp_all

theorem buildState_referee_ok {gs gs' : GameState} (hv : gs.variant = .refereeView)
    (h : buildState gs = .ok gs') : gs' = gs := by
  rcases buildState_master gs with ⟨e, he, _⟩ | ⟨⟨k, o, hvr, hb⟩ | ⟨_, hb⟩, hidx⟩
  · rw [he] at h; cases h
  · rw [hvr] at hv; cases hv
  · rw [hb] at h; cases h; rfl

theorem buildState_no_undo (gs : GameState) : buildState gs ≠ .error .undoNotAllowed := by
  rcases buildState_master gs with ⟨e, he, hne⟩ | ⟨⟨k, o, hv, hb⟩ | ⟨hv, hb⟩, hidx⟩
  · rw [he]; intro hc; cases hc; exact hne rfl
  · rw [hb]; exact fun hc => Except.noConfusion hc
  · rw [hb]; exact fun hc => Except.noConfusion hc

theorem assertValidShiftAndInsert_no_undo (b : Board) (c : Coord) (d : Direction) :
    b.assertValidShiftAndInsert c d ≠ .error .undoNotAllowed := by
  simp only [Board.assertValidShiftAndInsert, Board.assertInBounds, bind, Except.bind]
  by_cases h1 : b.inBounds c
  · simp only [if_pos h1]
    by_cases h2 : isMoveable c.col ∧ isMoveable c.row
    · simp only [if_neg (not_not_intro h2)]
      by_cases h3 : c ∈ b.getValidInsertLocations d
      · simp [h3]
      · simp [h3]
    · rw [if_pos h2]
      simp
  · simp [if_neg h1]

theorem withTiles_no_undo (b : Board) (f : Coord → Option Tile) :
    b.withTiles f ≠ .error .undoNotAllowed := by
  unfold Board.withTiles
  repeat' split
  all_goals simp

theorem slideAndInsertTile_no_undo (b : Board) (c : Coord) (d : Direction) (t : Tile) :
    b.slideAndInsertTile c d t ≠ .error .undoNotAllowed := by
  simp only [Board.slideAndInsertTile, bind, Except.bind]
  cases ha : b.assertValidShiftAndInsert c d with
  | error e =>
    intro hc
    simp only [Except.error.injEq] at hc
    subst hc
    exact assertValidShiftAndInsert_no_undo b c d ha
  | ok u =>
    cases hdt : (if d.isVertical then b.slideColumn c.col d else b.slideRow c.row d).2.1 with
    | none => simp [hdt]
    | some ej =>
      simp only [hdt]
      cases hw : b.withTiles fun k =>
          if k = c then some t
          else (if d.isVertical then b.slideColumn c.col d else b.slideRow c.row d).1 k with
      | error e =>
        intro hc
        simp only [Except.error.injEq] at hc
        subst hc
        exact withTiles_no_undo b _ hw
      | ok nb => simp [hw]

theorem lookupA_filter_self {β : Type} (l : List (Color × β)) (c : Color) :
    lookupA (l.filter fun p => p.1 ≠ c) c = none := by
  induction l with
  | nil => rfl
  | cons p rest ih =>
    simp only [ne_eq, decide_not] at ih ⊢
    by_cases h : p.1 = c
    · simp [List.filter_cons, h, ih]
    · simp [List.filter_cons, h, lookupA, ih]

theorem lookupA_filter_other {β : Type} (l : List (Color × β)) (c c' : Color)
    (h : c' ≠ c) : lookupA (l.filter fun p => p.1 ≠ c) c' = lookupA l c' := by
  induction l with
  | nil => rfl
  | cons p rest ih =>
    simp only [ne_eq, decide_not] at ih ⊢
    by_cases hp : p.1 = c
    · have h2 : p.1 ≠ c' := by rw [hp]; exact fun hc => h hc.symm
      simp [List.filter_cons, hp, lookupA, h2, h, Ne.symm h, ih]
    · by_cases hc' : p.1 = c'
      · simp [List.filter_cons, hp, lookupA, hc', h, Ne.symm h, ih]
      · simp [List.filter_cons, hp, lookupA, hc', h, Ne.symm h, ih]

theorem filter_length_of_mem {β : Type} (l : List (Color × β)) (c : Color)
    (hnd : (l.map (·.1)).Nodup) (hc : c ∈ l.map (·.1)) :
    (l.filter fun p => p.1 ≠ c).length = l.length - 1 := by
  induction l with
  | nil => cases hc
  | cons p rest ih =>
    simp only [List.map_cons, List.nodup_cons] at hnd
    rcases List.mem_cons.mp hc with h1 | h2
    · have hrest : rest.filter (fun p => p.1 ≠ c) = rest := by
        apply List.filter_eq_self.mpr
        intro q hq
        have h1' : c = p.1 := h1
        exact decide_eq_true fun hqc =>
          hnd.1 (by rw [← h1', ← hqc]; exact List.mem_map_of_mem _ hq)
      have hpc : ¬ (p.1 ≠ c) := by simp [h1]
      rw [List.filter_cons, if_neg (by simpa using hpc), hrest]
      simp
    · have hp : p.1 ≠ c := fun hpc => hnd.1 (hpc ▸ h2)
      have hlen := ih hnd.2 h2
      have hub : 1 ≤ rest.length := by
        rcases rest with _ | ⟨q, rest'⟩
        · cases h2
        · simp
      rw [List.filter_cons, if_pos (by simpa using hp)]
      simp only [List.length_cons, hlen]
      omega

theorem lookupA_update_self {β : Type} (l : List (Color × β)) (k : Color) (v s : β)
    (h : lookupA l k = some s) : lookupA (updateA l k v) k = some v := by
  induction l with
  | nil => cases h
  | cons p rest ih =>
    simp only [updateA, List.map_cons] at ih ⊢
    by_cases hp : p.1 = k
    · rw [if_pos hp]
      simp [lookupA]
    · rw [if_neg hp]
      simp only [lookupA] at h ⊢
      rw [if_neg hp] at h
      rw [if_neg hp]
      exact ih h

theorem lookupA_update_other {β : Type} (l : List (Color × β)) (k c : Color) (v : β)
    (h : c ≠ k) : lookupA (updateA l k v) c = lookupA l c := by
  induction l with
  | nil => rfl
  | cons p rest ih =>
    simp only [updateA, List.map_cons] at ih ⊢
    by_cases hp : p.1 = k
    · rw [if_pos hp]
      have hkc : k ≠ c := fun hc => h hc.symm
      simp only [lookupA]
      rw [if_neg hkc, ih]
      have hpc : p.1 ≠ c := by rw [hp]; exact hkc
      rw [if_neg hpc]
    · rw [if_neg hp]
      simp only [lookupA]
      by_cases hc : p.1 = c
      · rw [if_pos hc, if_pos hc]
      · rw [if_neg hc, if_neg hc, ih]

/-! ### Claim theorems -/

/-- **C7**: Secret-access asymmetry.  On every `RestrictedGameState`,
`get_player_secret(color)` raises `SecretAccessError` for every color
other than the state's single owner, whether or not that color is a
player in the state.  On every `RefereeGameState`, `get_player_secret`
returns the mapped secret for every color in the secret mapping, and
raises a plain `KeyError` — never `SecretAccessError` — for a color
absent from it. -/
theorem secret_access_asymmetry :
    (∀ (gs : GameState) (owner c : Color), gs.variant = .restrictedView owner →
      c ≠ owner → gs.getPlayerSecret c = .error .secretAccess) ∧
    (∀ (gs : GameState) (c : Color) (s : PlayerSecret), gs.variant = .refereeView →
      lookupA gs.playerSecrets c = some s → gs.getPlayerSecret c = .ok s) ∧
    (∀ (gs : GameState) (c : Color), gs.variant = .refereeView →
      lookupA gs.playerSecrets c = none → gs.getPlayerSecret c = .error .keyError) := by
  refine ⟨?_, ?_, ?_⟩
  · intro gs owner c hv hne
    simp [GameState.getPlayerSecret, hv, hne]
  · intro gs c s hv hl
    simp [GameState.getPlayerSecret, hv, hl]
  · intro gs c hv hl
    simp [GameState.getPlayerSecret, hv, hl]

theorem secret_access_asymmetry_witness :
    sampleResState.getPlayerSecret "green" = .error .secretAccess ∧
    sampleRefState.getPlayerSecret "red" = .ok sampleSecret ∧
    sampleRefState.getPlayerSecret "blue" = .error .keyError :=
  ⟨secret_access_asymmetry.1 sampleResState "red" "green" rfl (by decide),
   secret_access_asymmetry.2.1 sampleRefState "red" sampleSecret rfl rfl,
   secret_access_asymmetry.2.2 sampleRefState "blue" rfl rfl⟩

/-- **C10**: On every `RefereeGameState`, `eject_player(color)` for a
color not in the player list returns the state unchanged without
raising; in particular it does not raise `NoMorePlayersError` even when
only one player remains, because the membership test precedes the
last-player test. -/
theorem eject_absent_player_noop :
    ∀ (gs : GameState) (c : Color), gs.variant = .refereeView →
      c ∉ gs.playerColors → gs.ejectPlayer c = .ok gs := by
  intro gs c hv hc
  simp only [GameState.ejectPlayer, hv]
  rw [if_pos hc]

theorem eject_absent_player_noop_witness :
    sampleRefStateSolo.ejectPlayer "blue" = .ok sampleRefStateSolo ∧
    sampleRefStateSolo.numPlayers = 1 :=
  ⟨eject_absent_player_noop sampleRefStateSolo "blue" rfl (by decide), rfl⟩

/-- **C1**: The two-phase turn state machine is enforced exactly:
`shift_tiles` succeeds only when the previous action is not PARTIAL and
records `PARTIAL(op)`; `move_current_player` succeeds only when the
previous action is PARTIAL and records `COMPLETE` with the same shift;
`get_legal_move_destinations` is empty whenever the previous action is
not PARTIAL, and `get_legal_shift_ops` is empty whenever it is
PARTIAL. -/
theorem turn_state_machine :
    (∀ (gs : GameState) (op : ShiftOp) (gs' : GameState), gs.shiftTiles op = .ok gs' →
      gs.prevAction.isMidTurn = false ∧ gs'.prevAction = .midTurn op) ∧
    (∀ (gs : GameState) (d : Coord) (gs' : GameState), gs.moveCurrentPlayer d = .ok gs' →
      ∃ s, gs.prevAction = .midTurn s ∧ gs'.prevAction = .fullTurn s) ∧
    (∀ gs : GameState, gs.prevAction.isMidTurn = true → gs.getLegalShiftOps = ∅) ∧
    (∀ (gs : GameState) (r : Finset Coord), gs.prevAction.isMidTurn = false →
      gs.getLegalMoveDestinations = .ok r → r = ∅) := by
  refine ⟨?_, ?_, ?_, ?_⟩
  · intro gs op gs' h
    unfold GameState.shiftTiles at h
    by_cases hm : gs.prevAction.isMidTurn
    · rw [if_pos hm] at h; cases h
    · refine ⟨by simpa using hm, ?_⟩
      rw [if_neg hm] at h
      split at h
      · cases h
      · simp only [bind, Except.bind] at h
        cases hs : gs.board.slideAndInsertTile op.insertLocation op.direction gs.spareTile with
        | error e => rw [hs] at h; simp only [] at h; cases h
        | ok trip =>
          obtain ⟨nb, nsp, ned⟩ := trip
          rw [hs] at h
          simp only [] at h
          have := (buildState_ok h).2.2.2.2.1
          simpa using this
  · intro gs d gs' h
    simp only [GameState.moveCurrentPlayer, bind, Except.bind] at h
    cases hb : gs.board.assertInBounds d with
    | error e => rw [hb] at h; simp only [] at h; cases h
    | ok u =>
      rw [hb] at h
      simp only [] at h
      cases hp : gs.prevAction with
      | empty => rw [hp] at h; simp only [] at h; cases h
      | fullTurn s => rw [hp] at h; simp only [] at h; cases h
      | midTurn s =>
        rw [hp] at h
        simp only [] at h
        refine ⟨s, rfl, ?_⟩
        cases hc : gs.currentPlayerColorE with
        | error e => rw [hc] at h; simp only [] at h; cases h
        | ok color =>
          rw [hc] at h
          simp only [] at h
          cases hl : lookupA gs.playerStates color with
          | none => rw [hl] at h; simp only [] at h; cases h
          | some st =>
            rw [hl] at h
            simp only [] at h
            split at h
            · cases h
            · cases hr : gs.board.reachableDestinations st.location with
              | error e => rw [hr] at h; simp only [] at h; cases h
              | ok reach =>
                rw [hr] at h
                simp only [] at h
                split at h
                · cases h
                · have := (buildState_ok h).2.2.2.2.1
                  simpa using this
  · intro gs hm
    unfold GameState.getLegalShiftOps
    rw [if_pos hm]
  · intro gs r hm h
    simp only [GameState.getLegalMoveDestinations, bind, Except.bind] at h
    cases hst : gs.currentPlayerStateE with
    | error e => rw [hst] at h; simp only [] at h; cases h
    | ok st =>
      rw [hst] at h
      simp only [] at h
      rw [if_pos (by simp [hm])] at h
      cases h
      rfl

/-- A successful sample shift: red shifts the top row to the right. -/
def sampleShifted : GameState :=
  match sampleRefState.shiftTiles ⟨⟨0, 0⟩, .right⟩ with
  | .ok s => s
  | .error _ => sampleRefState

/-- A successful sample move after `sampleShifted`: red moves to the
top-left corner. -/
def sampleMoved : GameState :=
  match sampleShifted.moveCurrentPlayer ⟨0, 0⟩ with
  | .ok s => s
  | .error _ => sampleShifted

theorem turn_state_machine_witness :
    (sampleRefState.prevAction.isMidTurn = false ∧
      sampleShifted.prevAction = .midTurn ⟨⟨0, 0⟩, .right⟩) ∧
    (∃ s, sampleShifted.prevAction = .midTurn s ∧ sampleMoved.prevAction = .fullTurn s) ∧
    sampleShifted.getLegalShiftOps = ∅ ∧
    ∀ r : Finset Coord, sampleRefState.getLegalMoveDestinations = .ok r → r = ∅ :=
  ⟨turn_state_machine.1 sampleRefState ⟨⟨0, 0⟩, .right⟩ sampleShifted rfl,
   turn_state_machine.2.1 sampleShifted ⟨0, 0⟩ sampleMoved rfl,
   turn_state_machine.2.2.1 sampleShifted rfl,
   fun r => turn_state_machine.2.2.2 sampleRefState r rfl⟩

theorem rotated_emod (d : Direction) (r : Int) : d.rotated (r % 4) = d.rotated r := by
  unfold Direction.rotated
  have h1 : (d.idx + r % 4) % 4 = (d.idx % 4 + (r % 4) % 4) % 4 :=
    Int.add_emod _ _ _
  have h2 : (r % 4) % 4 = r % 4 := Int.emod_emod_of_dvd r dvd_rfl
  have h3 : (d.idx + r) % 4 = (d.idx % 4 + r % 4) % 4 := Int.add_emod _ _ _
  rw [h1, h2, ← h3]

theorem rotateSpareTile_congr (gs : GameState) (d1 d2 : Int)
    (h1 : d1 % 90 = 0) (h2 : d2 % 90 = 0)
    (hr : (d1 / 90 + gs.spareTile.rotation) % 4 =
      (d2 / 90 + gs.spareTile.rotation) % 4) :
    gs.rotateSpareTile d1 = gs.rotateSpareTile d2 := by
  unfold GameState.rotateSpareTile
  by_cases hm : gs.prevAction.isMidTurn = true
  · rw [if_neg (by simp [h1]), if_pos hm, if_neg (by simp [h2]), if_pos hm]
  · rw [if_neg (by simp [h1]), if_neg hm, if_neg (by simp [h2]), if_neg hm]
    simp only []
    rw [hr]

theorem rotateSpareTile_ok_spare {gs gs' : GameState} {deg : Int}
    (h : gs.rotateSpareTile deg = .ok gs') :
    gs'.spareTile = ⟨gs.spareTile.shape, (deg / 90 + gs.spareTile.rotation) % 4,
      (min gs.spareTile.gems.1 gs.spareTile.gems.2,
        max gs.spareTile.gems.1 gs.spareTile.gems.2)⟩ := by
  unfold GameState.rotateSpareTile at h
  split at h
  · cases h
  · split at h
    · cases h
    · simp only [bind, Except.bind, Tile.rotate, Tile.make] at h
      have hnn := Int.emod_nonneg (deg / 90 + gs.spareTile.rotation)
        (by norm_num : (4 : Int) ≠ 0)
      have hlt := Int.emod_lt_of_pos (deg / 90 + gs.spareTile.rotation)
        (by norm_num : (0 : Int) < 4)
      rw [if_neg (by omega)] at h
      simp only [] at h
      exact (buildState_ok h).2.2.1

/-- **C8**: Rotation algebra.  `rotate_spare_tile(deg)` raises
`ValueError` for every `deg` not a multiple of 90; rotating by 0, 4×90
or −4×90 degrees leaves the spare tile's connected-direction set
unchanged; rotating by `360k + 90` degrees equals rotating by 90; and
two successive `rotate_spare_tile` calls compose by adding their
quarter-turn counts mod 4. -/
theorem rotation_algebra :
    (∀ (gs : GameState) (deg : Int), deg % 90 ≠ 0 →
      gs.rotateSpareTile deg = .error .valueError) ∧
    (∀ gs gs' : GameState, gs.rotateSpareTile 0 = .ok gs' →
      gs'.spareTile.connectedDirections = gs.spareTile.connectedDirections) ∧
    (∀ gs : GameState, gs.rotateSpareTile 360 = gs.rotateSpareTile 0 ∧
      gs.rotateSpareTile (-360) = gs.rotateSpareTile 0) ∧
    (∀ (gs : GameState) (k : Int), gs.rotateSpareTile (360 * k + 90) = gs.rotateSpareTile 90) ∧
    (∀ (gs gs1 gs2 : GameState) (d1 d2 : Int), gs.rotateSpareTile d1 = .ok gs1 →
      gs1.rotateSpareTile d2 = .ok gs2 →
      gs2.spareTile.rotation =
        (d1 / 90 + d2 / 90 + gs.spareTile.rotation) % 4) := by
  refine ⟨?_, ?_, ?_, ?_, ?_⟩
  · intro gs deg h
    unfold GameState.rotateSpareTile
    rw [if_pos h]
  · intro gs gs' h
    rw [rotateSpareTile_ok_spare h]
    unfold Tile.connectedDirections
    apply Finset.image_congr
    intro d _
    simp only []
    have hz : ((0 : Int) / 90 + gs.spareTile.rotation) = gs.spareTile.rotation := by
      rw [Int.zero_ediv, zero_add]
    rw [hz, rotated_emod]
  · intro gs
    have e360 : (360 : Int) / 90 = 4 := by decide
    have e0 : (0 : Int) / 90 = 0 := by decide
    have em360 : (-360 : Int) / 90 = -4 := by decide
    constructor
    · apply rotateSpareTile_congr gs 360 0 (by decide) (by decide)
      rw [e360, e0]
      omega
    · apply rotateSpareTile_congr gs (-360) 0 (by decide) (by decide)
      rw [em360, e0]
      omega
  · intro gs k
    have hmul : 360 * k + 90 = 90 * (4 * k + 1) := by ring
    apply rotateSpareTile_congr
    · rw [hmul]
      exact Int.mul_emod_right 90 (4 * k + 1)
    · decide
    · rw [hmul, Int.mul_ediv_cancel_left _ (by norm_num : (90 : Int) ≠ 0)]
      have h90 : (90 : Int) / 90 = 1 := by decide
      rw [h90]
      omega
  · intro gs gs1 gs2 d1 d2 h1 h2
    have e1 := rotateSpareTile_ok_spare h1
    have e2 := rotateSpareTile_ok_spare h2
    rw [e2, e1]
    simp only []
    have key : ∀ a b r : Int, (b + (a + r) % 4) % 4 = (a + b + r) % 4 := by
      intro a b r
      conv_lhs => rw [Int.add_emod]
      rw [Int.emod_emod_of_dvd _ dvd_rfl, ← Int.add_emod]
      congr 1
      ring
    exact key _ _ _

/-- The sample state with its spare tile rotated by 90 degrees. -/
def sampleRot90 : GameState :=
  match sampleRefState.rotateSpareTile 90 with
  | .ok s => s
  | .error _ => sampleRefState

/-- `sampleRot90` rotated further by 180 degrees. -/
def sampleRot90Then180 : GameState :=
  match sampleRot90.rotateSpareTile 180 with
  | .ok s => s
  | .error _ => sampleRot90

theorem rotation_algebra_witness :
    sampleRefState.rotateSpareTile 45 = .error .valueError ∧
    (∀ gs' : GameState, sampleRefState.rotateSpareTile 0 = .ok gs' →
      gs'.spareTile.connectedDirections = sampleRefState.spareTile.connectedDirections) ∧
    sampleRot90Then180.spareTile.rotation =
      ((90 : Int) / 90 + (180 : Int) / 90 + sampleRefState.spareTile.rotation) % 4 :=
  ⟨rotation_algebra.1 sampleRefState 45 (by decide),
   fun gs' h => rotation_algebra.2.1 sampleRefState gs' h,
   rotation_algebra.2.2.2.2 sampleRefState sampleRot90 sampleRot90Then180 90 180 rfl rfl⟩

theorem getPlayerSecret_ok_lookup {gs : GameState} {c : Color} {sec : PlayerSecret}
    (h : gs.getPlayerSecret c = .ok sec) : lookupA gs.playerSecrets c = some sec := by
  unfold GameState.getPlayerSecret at h
  cases hv : gs.variant with
  | restrictedView o =>
    rw [hv] at h
    simp only [] at h
    by_cases hc : c = o
    · rw [if_pos hc] at h
      subst hc
      cases hl : lookupA gs.playerSecrets c with
      | none => rw [hl] at h; simp only [] at h; cases h
      | some s => rw [hl] at h; simp only [] at h; cases h; exact rfl
    · rw [if_neg hc] at h; cases h
  | refereeView =>
    rw [hv] at h
    simp only [] at h
    cases hl : lookupA gs.playerSecrets c with
    | none => rw [hl] at h; simp only [] at h; cases h
    | some s => rw [hl] at h; simp only [] at h; cases h; exact rfl

/-- **C9 (counterexample)**: with the current (red) player standing on
its treasure and the state able to see red's secret,
`set_current_player_new_goal((99, 99))` raises `IndexError` (the state
rebuild re-validates secret locations) instead of returning a state with
`treasure_location = (99, 99)`, refuting the claim for out-of-bounds
goals. -/
theorem set_new_goal_out_of_bounds_cex :
    sampleRefState.setCurrentPlayerNewGoal ⟨99, 99⟩ = .error .indexError ∧
    sampleRefState.currentPlayerColorE = .ok "red" ∧
    sampleRefState.canGetPlayerSecret "red" = true ∧
    lookupA sampleRefState.playerStates "red" = some samplePlayerRed ∧
    sampleRefState.getPlayerSecret "red" = .ok sampleSecret ∧
    samplePlayerRed.location = sampleSecret.treasureLocation ∧
    (⟨99, 99⟩ : Coord) ≠ samplePlayerRed.homeLocation :=
  ⟨rfl, rfl, rfl, rfl, rfl, rfl, by decide⟩

/-- **C9 (amended)**: `set_current_player_new_goal(coord)` returns the
state unchanged unless the state can see the current player's secret and
the current player's location equals their present treasure location;
when it does take effect and the rebuilt state validates (in particular
`coord` is in bounds), a `coord` equal to the player's home sets
`is_going_home` and increments the treasure count, and any other `coord`
becomes the new treasure location with the count incremented, leaving
board, spare tile, player public states and previous action
unchanged. -/
theorem set_new_goal_spec :
    (∀ (gs : GameState) (g : Coord) (c : Color), gs.currentPlayerColorE = .ok c →
      gs.canGetPlayerSecret c = false → gs.setCurrentPlayerNewGoal g = .ok gs) ∧
    (∀ (gs : GameState) (g : Coord) (c : Color) (st : PlayerState) (sec : PlayerSecret),
      gs.currentPlayerColorE = .ok c → gs.canGetPlayerSecret c = true →
      lookupA gs.playerStates c = some st → gs.getPlayerSecret c = .ok sec →
      st.location ≠ sec.treasureLocation → gs.setCurrentPlayerNewGoal g = .ok gs) ∧
    (∀ (gs gs' : GameState) (g : Coord) (c : Color) (st : PlayerState) (sec : PlayerSecret),
      gs.currentPlayerColorE = .ok c → gs.canGetPlayerSecret c = true →
      lookupA gs.playerStates c = some st → gs.getPlayerSecret c = .ok sec →
      st.location = sec.treasureLocation →
      gs.setCurrentPlayerNewGoal g = .ok gs' →
      gs'.board = gs.board ∧ gs'.spareTile = gs.spareTile ∧
      gs'.playerStates = gs.playerStates ∧ gs'.prevAction = gs.prevAction ∧
      (g = st.homeLocation →
        lookupA gs'.playerSecrets c = some ⟨sec.treasureLocation, true, sec.treasureCount + 1⟩) ∧
      (g ≠ st.homeLocation →
        lookupA gs'.playerSecrets c = some ⟨g, false, sec.treasureCount + 1⟩) ∧
      (∀ c', c' ≠ c → lookupA gs'.playerSecrets c' = lookupA gs.playerSecrets c')) := by
  refine ⟨?_, ?_, ?_⟩
  · intro gs g c hc hcan
    simp only [GameState.setCurrentPlayerNewGoal, bind, Except.bind]
    rw [hc]
    simp only []
    rw [if_pos (by simp [hcan])]
  · intro gs g c st sec hc hcan hst hsec hne
    simp only [GameState.setCurrentPlayerNewGoal, bind, Except.bind]
    rw [hc]
    simp only []
    rw [if_neg (by simp [hcan]), hst]
    simp only []
    rw [hsec]
    simp only []
    rw [if_pos hne]
  · intro gs gs' g c st sec hc hcan hst hsec heq h
    simp only [GameState.setCurrentPlayerNewGoal, bind, Except.bind] at h
    rw [hc] at h
    simp only [] at h
    rw [if_neg (by simp [hcan]), hst] at h
    simp only [] at h
    rw [hsec] at h
    simp only [] at h
    rw [if_neg (by simp [heq])] at h
    have hlk := getPlayerSecret_ok_lookup hsec
    by_cases hg : g = st.homeLocation
    · rw [if_pos hg] at h
      obtain ⟨hps, hsecs, hsp, hb, hpa, hidx, _⟩ := buildState_ok h
      refine ⟨hb, hsp, hps, hpa, ?_, ?_, ?_⟩
      · intro _
        rw [hsecs]
        exact lookupA_update_self _ _ _ _ hlk
      · intro hgne; exact absurd hg hgne
      · intro c' hne
        rw [hsecs]
        exact lookupA_update_other _ _ _ _ hne
    · rw [if_neg hg] at h
      obtain ⟨hps, hsecs, hsp, hb, hpa, hidx, _⟩ := buildState_ok h
      refine ⟨hb, hsp, hps, hpa, ?_, ?_, ?_⟩
      · intro hgh; exact absurd hgh hg
      · intro _
        rw [hsecs]
        exact lookupA_update_self _ _ _ _ hlk
      · intro c' hne
        rw [hsecs]
        exact lookupA_update_other _ _ _ _ hne

/-- The sample referee state after granting red (standing on its
treasure) the new goal (0, 2). -/
def sampleGoalSet : GameState :=
  match sampleRefState.setCurrentPlayerNewGoal ⟨0, 2⟩ with
  | .ok s => s
  | .error _ => sampleRefState

/-- The restricted sample state with green (not the owner) to move. -/
def sampleResStateGreen : GameState :=
  ⟨[("red", samplePlayerRed), ("green", samplePlayerGreen)],
   [("red", sampleSecret)],
   sampleSpare, sampleBoard, .empty, 1, .restrictedView "red"⟩

theorem set_new_goal_spec_witness :
    sampleResStateGreen.setCurrentPlayerNewGoal ⟨0, 0⟩ = .ok sampleResStateGreen ∧
    (sampleGoalSet.board = sampleRefState.board ∧
      sampleGoalSet.spareTile = sampleRefState.spareTile ∧
      sampleGoalSet.playerStates = sampleRefState.playerStates ∧
      sampleGoalSet.prevAction = sampleRefState.prevAction ∧
      ((⟨0, 2⟩ : Coord) = samplePlayerRed.homeLocation →
        lookupA sampleGoalSet.playerSecrets "red" =
          some ⟨sampleSecret.treasureLocation, true, sampleSecret.treasureCount + 1⟩) ∧
      ((⟨0, 2⟩ : Coord) ≠ samplePlayerRed.homeLocation →
        lookupA sampleGoalSet.playerSecrets "red" =
          some ⟨⟨0, 2⟩, false, sampleSecret.treasureCount + 1⟩) ∧
      (∀ c', c' ≠ "red" →
        lookupA sampleGoalSet.playerSecrets c' = lookupA sampleRefState.playerSecrets c')) :=
  ⟨set_new_goal_spec.1 sampleResStateGreen ⟨0, 0⟩ "green" rfl rfl,
   set_new_goal_spec.2.2 sampleRefState sampleGoalSet ⟨0, 2⟩ "red" samplePlayerRed
     sampleSecret rfl rfl rfl rfl rfl rfl⟩

/-- **C5**: Ejection semantics.  On every `RestrictedGameState`, both
ejection methods always raise `PlayerListModificationError`.  On every
`RefereeGameState`, ejecting a present player removes that player's
state and secret, raises `NoMorePlayersError` when that player is the
sole remaining one, and adjusts the current-player index to stay valid:
decremented by one when a player earlier in turn order is removed, and
wrapped to 0 when the removed player was both current and last in turn
order. -/
theorem ejection_semantics :
    (∀ (gs : GameState) (o : Color), gs.variant = .restrictedView o →
      gs.ejectCurrentPlayer = .error .playerListModification ∧
      ∀ c, gs.ejectPlayer c = .error .playerListModification) ∧
    (∀ gs : GameState, gs.variant = .refereeView → gs.numPlayers = 1 →
      gs.ejectCurrentPlayer = .error .noMorePlayers) ∧
    (∀ (gs : GameState) (c : Color), gs.variant = .refereeView → c ∈ gs.playerColors →
      gs.numPlayers = 1 → gs.ejectPlayer c = .error .noMorePlayers) ∧
    (∀ (gs gs' : GameState) (c : Color), gs.variant = .refereeView →
      (gs.playerStates.map (·.1)).Nodup → c ∈ gs.playerColors →
      gs.ejectPlayer c = .ok gs' →
      lookupA gs'.playerStates c = none ∧ lookupA gs'.playerSecrets c = none ∧
      (∀ c', c' ≠ c → lookupA gs'.playerStates c' = lookupA gs.playerStates c' ∧
        lookupA gs'.playerSecrets c' = lookupA gs.playerSecrets c') ∧
      gs'.numPlayers = gs.numPlayers - 1 ∧
      gs'.currentPlayerIndex < gs'.numPlayers ∧
      (gs.playerColors.indexOf c < gs.currentPlayerIndex →
        gs'.currentPlayerIndex = gs.currentPlayerIndex - 1) ∧
      (gs.playerColors.indexOf c = gs.currentPlayerIndex →
        gs.currentPlayerIndex = gs.numPlayers - 1 → gs'.currentPlayerIndex = 0) ∧
      (gs.playerColors.indexOf c = gs.currentPlayerIndex →
        gs.currentPlayerIndex < gs.numPlayers - 1 →
        gs'.currentPlayerIndex = gs.currentPlayerIndex) ∧
      (gs.playerColors.indexOf c > gs.currentPlayerIndex →
        gs'.currentPlayerIndex = gs.currentPlayerIndex)) ∧
    (∀ (gs gs' : GameState) (c : Color), gs.variant = .refereeView →
      (gs.playerStates.map (·.1)).Nodup → gs.currentPlayerColorE = .ok c →
      gs.ejectCurrentPlayer = .ok gs' →
      lookupA gs'.playerStates c = none ∧ lookupA gs'.playerSecrets c = none ∧
      (∀ c', c' ≠ c → lookupA gs'.playerStates c' = lookupA gs.playerStates c' ∧
        lookupA gs'.playerSecrets c' = lookupA gs.playerSecrets c') ∧
      gs'.numPlayers = gs.numPlayers - 1 ∧
      gs'.currentPlayerIndex < gs'.numPlayers ∧
      (gs.currentPlayerIndex ≥ gs.numPlayers - 1 → gs'.currentPlayerIndex = 0) ∧
      (gs.currentPlayerIndex < gs.numPlayers - 1 →
        gs'.currentPlayerIndex = gs.currentPlayerIndex)) := by
  have hmem : ∀ (gs : GameState) (c : Color), gs.currentPlayerColorE = .ok c →
      c ∈ gs.playerColors := by
    intro gs c hc
    unfold GameState.currentPlayerColorE at hc
    cases hg : gs.playerColors.get? gs.currentPlayerIndex with
    | none => rw [hg] at hc; cases hc
    | some c0 =>
      rw [hg] at hc
      cases hc
      exact List.get?_mem hg
  refine ⟨?_, ?_, ?_, ?_, ?_⟩
  · intro gs o hv
    constructor
    · simp [GameState.ejectCurrentPlayer, hv]
    · intro c
      simp [GameState.ejectPlayer, hv]
  · intro gs hv h1
    simp only [GameState.ejectCurrentPlayer, hv]
    rw [if_pos h1]
  · intro gs c hv hmemc h1
    simp only [GameState.ejectPlayer, hv]
    rw [if_neg (by simp [hmemc]), if_pos h1]
  · intro gs gs' c hv hnd hmemc h
    simp only [GameState.ejectPlayer, hv] at h
    rw [if_neg (by simp [hmemc])] at h
    split at h
    · cases h
    · have hgs' := buildState_referee_ok rfl h
      have hidx := (buildState_ok h).2.2.2.2.2.2
      subst hgs'
      have hlen : (gs.playerStates.filter fun p => p.1 ≠ c).length =
          gs.playerStates.length - 1 :=
        filter_length_of_mem gs.playerStates c hnd hmemc
      refine ⟨lookupA_filter_self _ _, lookupA_filter_self _ _, ?_, ?_, ?_, ?_, ?_, ?_, ?_⟩
      · intro c' hne
        exact ⟨lookupA_filter_other _ _ _ hne, lookupA_filter_other _ _ _ hne⟩
      · simpa [GameState.numPlayers] using hlen
      · simpa [GameState.numPlayers] using hidx
      · intro hlt
        simp only []
        rw [if_pos hlt]
      · intro heq hlast
        simp only []
        rw [if_neg (by omega)]
        rw [if_pos ⟨heq, by rw [hlen]; simp only [GameState.numPlayers] at hlast; omega⟩]
      · intro heq hnotlast
        simp only []
        rw [if_neg (by omega)]
        rw [if_neg (by rw [hlen]; simp only [GameState.numPlayers] at hnotlast; omega)]
      · intro hgt
        simp only []
        rw [if_neg (by omega)]
        rw [if_neg (by omega)]
  · intro gs gs' c hv hnd hc h
    simp only [GameState.ejectCurrentPlayer, hv, bind, Except.bind] at h
    split at h
    · cases h
    next h1 =>
      rw [hc] at h
      simp only [] at h
      have hgs' := buildState_referee_ok rfl h
      have hidx := (buildState_ok h).2.2.2.2.2.2
      subst hgs'
      have hmemc := hmem gs c hc
      have hlen : (gs.playerStates.filter fun p => p.1 ≠ c).length =
          gs.playerStates.length - 1 :=
        filter_length_of_mem gs.playerStates c hnd hmemc
      refine ⟨lookupA_filter_self _ _, lookupA_filter_self _ _, ?_, ?_, ?_, ?_, ?_⟩
      · intro c' hne
        exact ⟨lookupA_filter_other _ _ _ hne, lookupA_filter_other _ _ _ hne⟩
      · simpa [GameState.numPlayers] using hlen
      · simpa [GameState.numPlayers] using hidx
      · intro hlast
        simp only []
        rw [if_pos (by rw [hlen]; simp only [GameState.numPlayers] at hlast; omega)]
      · intro hnotlast
        simp only []
        rw [if_neg (by rw [hlen]; simp only [GameState.numPlayers] at hnotlast; omega)]

/-- The two-player referee sample after ejecting red (the current
player) by color. -/
def sampleEjectedRed : GameState :=
  match sampleRefState.ejectPlayer "red" with
  | .ok s => s
  | .error _ => sampleRefState

/-- The two-player referee sample after ejecting the current player. -/
def sampleEjectedCurrent : GameState :=
  match sampleRefState.ejectCurrentPlayer with
  | .ok s => s
  | .error _ => sampleRefState

theorem ejection_semantics_witness :
    (sampleResState.ejectCurrentPlayer = .error .playerListModification ∧
      ∀ c, sampleResState.ejectPlayer c = .error .playerListModification) ∧
    sampleRefStateSolo.ejectCurrentPlayer = .error .noMorePlayers ∧
    sampleRefStateSolo.ejectPlayer "red" = .error .noMorePlayers ∧
    lookupA sampleEjectedRed.playerStates "red" = none ∧
    lookupA sampleEjectedRed.playerSecrets "red" = none ∧
    sampleEjectedRed.numPlayers = sampleRefState.numPlayers - 1 ∧
    lookupA sampleEjectedCurrent.playerStates "red" = none :=
  ⟨ejection_semantics.1 sampleResState "red" rfl,
   ejection_semantics.2.1 sampleRefStateSolo rfl rfl,
   ejection_semantics.2.2.1 sampleRefStateSolo "red" rfl (by decide) rfl,
   (ejection_semantics.2.2.2.1 sampleRefState sampleEjectedRed "red" rfl (by decide)
     (by decide) rfl).1,
   (ejection_semantics.2.2.2.1 sampleRefState sampleEjectedRed "red" rfl (by decide)
     (by decide) rfl).2.1,
   (ejection_semantics.2.2.2.1 sampleRefState sampleEjectedRed "red" rfl (by decide)
     (by decide) rfl).2.2.2.1,
   (ejection_semantics.2.2.2.2 sampleRefState sampleEjectedCurrent "red" rfl (by decide)
     rfl rfl).1⟩

theorem assertValidShiftAndInsert_ok_mem {b : Board} {c : Coord} {d : Direction} {u : Unit}
    (h : b.assertValidShiftAndInsert c d = .ok u) :
    c ∈ b.getValidInsertLocations d := by
  simp only [Board.assertValidShiftAndInsert, Board.assertInBounds, bind, Except.bind] at h
  by_cases h1 : b.inBounds c
  · rw [if_pos h1] at h
    simp only [] at h
    by_cases h2 : isMoveable c.col ∧ isMoveable c.row
    · rw [if_neg (not_not_intro h2)] at h
      by_cases h3 : c ∈ b.getValidInsertLocations d
      · exact h3
      · rw [if_pos h3] at h
        cases h
    · rw [if_pos h2] at h
      cases h
  · rw [if_neg h1] at h
    simp only [] at h
    cases h

theorem withTiles_ok_dims {b : Board} {f : Coord → Option Tile} {nb : Board}
    (h : b.withTiles f = .ok nb) : nb.width = b.width ∧ nb.height = b.height := by
  unfold Board.withTiles at h
  by_cases h1 : b.width = 0 ∨ b.height = 0
  · rw [if_pos h1] at h
    cases h
  · rw [if_neg h1] at h
    by_cases h2 : b.coordList.all fun c => (f c).isSome
    · rw [if_neg (not_not_intro h2)] at h
      by_cases h3 : (b.coordList.filterMap fun c => (f c).map (·.gems)).Nodup
      · rw [if_neg (not_not_intro h3)] at h
        cases h
        exact ⟨rfl, rfl⟩
      · rw [if_pos h3] at h
        cases h
    · rw [if_pos h2] at h
      cases h

theorem slideAndInsertTile_ok_facts {b : Board} {c : Coord} {d : Direction} {t : Tile}
    {trip : Board × Tile × BoardEdit} (h : b.slideAndInsertTile c d t = .ok trip) :
    trip.1.width = b.width ∧ trip.1.height = b.height ∧
    c ∈ b.getValidInsertLocations d := by
  simp only [Board.slideAndInsertTile, bind, Except.bind] at h
  cases ha : b.assertValidShiftAndInsert c d with
  | error e => rw [ha] at h; simp only [] at h; cases h
  | ok u =>
    rw [ha] at h
    simp only [] at h
    refine ?_
    cases hdt : (if d.isVertical then b.slideColumn c.col d else b.slideRow c.row d).2.1 with
    | none => rw [hdt] at h; simp only [] at h; cases h
    | some ej =>
      rw [hdt] at h
      simp only [] at h
      cases hw : b.withTiles fun k =>
          if k = c then some t
          else (if d.isVertical then b.slideColumn c.col d else b.slideRow c.row d).1 k with
      | error e => rw [hw] at h; simp only [] at h; cases h
      | ok nb =>
        rw [hw] at h
        simp only [] at h
        cases h
        have hb := withTiles_ok_dims hw
        exact ⟨hb.1, hb.2, assertValidShiftAndInsert_ok_mem ha⟩

theorem shiftTiles_ok_facts {gs gs' : GameState} {op : ShiftOp}
    (h : gs.shiftTiles op = .ok gs') :
    gs'.prevAction = .midTurn op ∧ gs'.board.width = gs.board.width ∧
    gs'.board.height = gs.board.height ∧
    op.insertLocation ∈ gs.board.getValidInsertLocations op.direction := by
  unfold GameState.shiftTiles at h
  split at h
  · cases h
  · split at h
    · cases h
    · simp only [bind, Except.bind] at h
      cases hs : gs.board.slideAndInsertTile op.insertLocation op.direction gs.spareTile with
      | error e => rw [hs] at h; simp only [] at h; cases h
      | ok trip =>
        have hfacts := slideAndInsertTile_ok_facts hs
        obtain ⟨nb, nsp, ned⟩ := trip
        rw [hs] at h
        simp only [] at h
        have hok := buildState_ok h
        refine ⟨by simpa using hok.2.2.2.2.1, ?_, ?_, hfacts.2.2⟩
        · rw [hok.2.2.2.1]
          exact hfacts.1
        · rw [hok.2.2.2.1]
          exact hfacts.2.1

theorem moveCurrentPlayer_ok_facts {gs gs' : GameState} {d : Coord}
    (h : gs.moveCurrentPlayer d = .ok gs') :
    ∃ s, gs.prevAction = .midTurn s ∧ gs'.prevAction = .fullTurn s ∧
      gs'.board = gs.board := by
  simp only [GameState.moveCurrentPlayer, bind, Except.bind] at h
  cases hb : gs.board.assertInBounds d with
  | error e => rw [hb] at h; simp only [] at h; cases h
  | ok u =>
    rw [hb] at h
    simp only [] at h
    cases hp : gs.prevAction with
    | empty => rw [hp] at h; simp only [] at h; cases h
    | fullTurn s => rw [hp] at h; simp only [] at h; cases h
    | midTurn s =>
      rw [hp] at h
      simp only [] at h
      refine ⟨s, rfl, ?_⟩
      cases hc : gs.currentPlayerColorE with
      | error e => rw [hc] at h; simp only [] at h; cases h
      | ok color =>
        rw [hc] at h
        simp only [] at h
        cases hl : lookupA gs.playerStates color with
        | none => rw [hl] at h; simp only [] at h; cases h
        | some st =>
          rw [hl] at h
          simp only [] at h
          split at h
          · cases h
          · cases hr : gs.board.reachableDestinations st.location with
            | error e => rw [hr] at h; simp only [] at h; cases h
            | ok reach =>
              rw [hr] at h
              simp only [] at h
              split at h
              · cases h
              · have hok := buildState_ok h
                exact ⟨by simpa using hok.2.2.2.2.1, by simpa using hok.2.2.2.1⟩

theorem reverse_reverse {b b' : Board} {s : ShiftOp}
    (hmem : s.insertLocation ∈ b.getValidInsertLocations s.direction)
    (hw : b'.width = b.width) (hh : b'.height = b.height) :
    (s.reverse b').reverse b' = s := by
  obtain ⟨⟨scol, srow⟩, sdir⟩ := s
  cases sdir with
  | down =>
    simp only [Board.getValidInsertLocations, Direction.isVertical, if_pos] at hmem
    rw [if_neg (by norm_num [isMoveable])] at hmem
    simp only [Finset.mem_image, Finset.mem_filter, Finset.mem_range] at hmem
    obtain ⟨a, ha, hcoord⟩ := hmem
    have hrow : srow = 0 := by
      have := congrArg Coord.row hcoord
      simpa using this.symm
    subst hrow
    simp only [ShiftOp.reverse, Direction.isVertical, Direction.flip, Direction.rotated,
      Direction.idx, Direction.ofIdx]
    norm_num
  | up =>
    simp only [Board.getValidInsertLocations, Direction.isVertical, if_pos] at hmem
    have hne : Direction.up ≠ Direction.down := by decide
    rw [if_neg hne] at hmem
    by_cases hg : isMoveable ((b.height : Int) - 1)
    · rw [if_neg (not_not_intro hg)] at hmem
      simp only [Finset.mem_image, Finset.mem_filter, Finset.mem_range] at hmem
      obtain ⟨a, ha, hcoord⟩ := hmem
      have hrow : srow = (b.height : Int) - 1 := by
        have := congrArg Coord.row hcoord
        simpa using this.symm
      subst hrow
      simp only [ShiftOp.reverse, Direction.isVertical, Direction.flip, Direction.rotated,
        Direction.idx, Direction.ofIdx, hh]
      norm_num
    · rw [if_pos hg] at hmem
      exact absurd hmem (Finset.not_mem_empty _)
  | right =>
    simp only [Board.getValidInsertLocations, Direction.isVertical, Bool.false_eq_true,
      if_false, if_true] at hmem
    rw [if_neg (by norm_num [isMoveable])] at hmem
    simp only [Finset.mem_image, Finset.mem_filter, Finset.mem_range] at hmem
    obtain ⟨a, ha, hcoord⟩ := hmem
    have hcol : scol = 0 := by
      have := congrArg Coord.col hcoord
      simpa using this.symm
    subst hcol
    simp only [ShiftOp.reverse, Direction.isVertical, Direction.flip, Direction.rotated,
      Direction.idx, Direction.ofIdx]
    norm_num
  | left =>
    simp only [Board.getValidInsertLocations, Direction.isVertical, Bool.false_eq_true,
      if_false] at hmem
    have hne : Direction.left ≠ Direction.right := by decide
    rw [if_neg hne] at hmem
    by_cases hg : isMoveable ((b.width : Int) - 1)
    · rw [if_neg (not_not_intro hg)] at hmem
      simp only [Finset.mem_image, Finset.mem_filter, Finset.mem_range] at hmem
      obtain ⟨a, ha, hcoord⟩ := hmem
      have hcol : scol = (b.width : Int) - 1 := by
        have := congrArg Coord.col hcoord
        simpa using this.symm
      subst hcol
      simp only [ShiftOp.reverse, Direction.isVertical, Direction.flip, Direction.rotated,
        Direction.idx, Direction.ofIdx, hw]
      norm_num
    · rw [if_pos hg] at hmem
      exact absurd hmem (Finset.not_mem_empty _)

theorem shiftTiles_undo_iff (gs : GameState) (op : ShiftOp) :
    gs.shiftTiles op = .error .undoNotAllowed ↔
    (gs.prevAction.isMidTurn = false ∧
      ∃ s, gs.getLastShiftOp = some s ∧ op.reverse gs.board = s) := by
  unfold GameState.shiftTiles
  by_cases hm : gs.prevAction.isMidTurn
  · rw [if_pos hm]
    constructor
    · intro hc
      injection hc with h
      cases h
    · rintro ⟨hmf, _⟩
      rw [hm] at hmf
      cases hmf
  · rw [if_neg hm]
    cases hp : gs.prevAction with
    | midTurn s =>
      rw [hp] at hm
      simp [PrevAction.isMidTurn] at hm
    | empty =>
      simp only [Bool.false_eq_true, if_false]
      constructor
      · intro hc
        exfalso
        simp only [bind, Except.bind] at hc
        cases hs : gs.board.slideAndInsertTile op.insertLocation op.direction gs.spareTile with
        | error e =>
          rw [hs] at hc
          simp only [Except.error.injEq] at hc
          subst hc
          exact slideAndInsertTile_no_undo _ _ _ _ hs
        | ok trip =>
          obtain ⟨nb, nsp, ned⟩ := trip
          rw [hs] at hc
          simp only [] at hc
          exact buildState_no_undo _ hc
      · rintro ⟨_, s, hls, _⟩
        simp [GameState.getLastShiftOp, hp] at hls
    | fullTurn s =>
      simp only []
      by_cases hb : op.reverse gs.board = s
      · rw [if_pos (by simp [hb])]
        constructor
        · intro _
          exact ⟨rfl, s, by simp [GameState.getLastShiftOp, hp], hb⟩
        · intro _
          rfl
      · rw [if_neg (by simp [hb])]
        constructor
        · intro hc
          exfalso
          simp only [bind, Except.bind] at hc
          cases hs : gs.board.slideAndInsertTile op.insertLocation op.direction gs.spareTile with
          | error e =>
            rw [hs] at hc
            simp only [Except.error.injEq] at hc
            subst hc
            exact slideAndInsertTile_no_undo _ _ _ _ hs
          | ok trip =>
            obtain ⟨nb, nsp, ned⟩ := trip
            rw [hs] at hc
            simp only [] at hc
            exact buildState_no_undo _ hc
        · rintro ⟨_, s', hls, hrev⟩
          simp only [GameState.getLastShiftOp, hp, Option.some.injEq] at hls
          exact absurd (hls ▸ hrev) hb

/-- The sample referee state with a completed down-shift at (0, 0)
recorded as the previous action. -/
def sampleAfterDownShift : GameState :=
  { sampleRefState with prevAction := .fullTurn ⟨⟨0, 0⟩, .down⟩ }

/-- **C2 (counterexample)**: with the previous action recorded as the
completed shift `insert (0,0) DOWN`, the shift `insert (0,1) UP` — whose
own `reverse(board)` equals the recorded shift, but which is *not*
`prev_action.shift.reverse(board)` (that is `insert (0,2) UP` on a 3×3
board) — is rejected with `UndoNotAllowed`, refuting the claimed
equivalence `op = prev_action.shift.reverse(board)`. -/
theorem undo_rejection_cex :
    sampleAfterDownShift.shiftTiles ⟨⟨0, 1⟩, .up⟩ = .error .undoNotAllowed ∧
    sampleAfterDownShift.prevAction ≠ .empty ∧
    sampleAfterDownShift.prevAction.isMidTurn = false ∧
    (⟨⟨0, 1⟩, .up⟩ : ShiftOp) ≠
      (ShiftOp.mk ⟨0, 0⟩ .down).reverse sampleAfterDownShift.board ∧
    sampleAfterDownShift.prevAction = .fullTurn ⟨⟨0, 0⟩, .down⟩ :=
  ⟨rfl, by decide, rfl, by decide, rfl⟩

/-- **C2 (amended)**: for every `GameState` whose previous action is not
PARTIAL, `shift_tiles(op)` raises `UndoNotAllowed` iff the previous
action records a shift `s` (i.e. is not EMPTY) with
`op.reverse(board) = s`; in particular a shift, once completed by its
avatar move, makes any operation whose reverse is that shift — notably
its own `reverse(board)` — the rejected next shift, and after an
intervening different shift and move the same reverse operation is no
longer rejected as an undo. -/
theorem undo_rejection :
    (∀ (gs : GameState) (op : ShiftOp), gs.prevAction.isMidTurn = false →
      (gs.shiftTiles op = .error .undoNotAllowed ↔
        ∃ s, gs.getLastShiftOp = some s ∧ op.reverse gs.board = s)) ∧
    (∀ (gs gs1 gs2 : GameState) (op : ShiftOp) (d : Coord),
      gs.shiftTiles op = .ok gs1 → gs1.moveCurrentPlayer d = .ok gs2 →
      gs2.shiftTiles (op.reverse gs2.board) = .error .undoNotAllowed) ∧
    (∀ (gs gs1 gs2 gs3 gs4 : GameState) (op1 op2 : ShiftOp) (d1 d2 : Coord),
      gs.shiftTiles op1 = .ok gs1 → gs1.moveCurrentPlayer d1 = .ok gs2 →
      gs2.shiftTiles op2 = .ok gs3 → gs3.moveCurrentPlayer d2 = .ok gs4 →
      op2 ≠ op1 →
      gs4.shiftTiles (op1.reverse gs4.board) ≠ .error .undoNotAllowed) := by
  refine ⟨?_, ?_, ?_⟩
  · intro gs op hm
    rw [shiftTiles_undo_iff]
    constructor
    · rintro ⟨_, hx⟩
      exact hx
    · intro hx
      exact ⟨hm, hx⟩
  · intro gs gs1 gs2 op d h1 h2
    obtain ⟨hprev1, hw1, hh1, hmem1⟩ := shiftTiles_ok_facts h1
    obtain ⟨s, hps, hprev2, hboard2⟩ := moveCurrentPlayer_ok_facts h2
    rw [hprev1] at hps
    injection hps with hs
    subst hs
    rw [shiftTiles_undo_iff]
    refine ⟨by rw [hprev2]; rfl, op, by simp [GameState.getLastShiftOp, hprev2], ?_⟩
    refine reverse_reverse hmem1 ?_ ?_
    · rw [hboard2]
      exact hw1
    · rw [hboard2]
      exact hh1
  · intro gs gs1 gs2 gs3 gs4 op1 op2 d1 d2 h1 h2 h3 h4 hne
    obtain ⟨hprev1, hw1, hh1, hmem1⟩ := shiftTiles_ok_facts h1
    obtain ⟨s1, hps1, hprev2, hboard2⟩ := moveCurrentPlayer_ok_facts h2
    obtain ⟨hprev3, hw3, hh3, hmem3⟩ := shiftTiles_ok_facts h3
    obtain ⟨s2, hps2, hprev4, hboard4⟩ := moveCurrentPlayer_ok_facts h4
    rw [hprev3] at hps2
    injection hps2 with hs2
    subst hs2
    intro hc
    rw [shiftTiles_undo_iff] at hc
    obtain ⟨_, s', hls, hrev⟩ := hc
    simp only [GameState.getLastShiftOp, hprev4, Option.some.injEq] at hls
    subst hls
    have hinv : (op1.reverse gs4.board).reverse gs4.board = op1 := by
      refine reverse_reverse hmem1 ?_ ?_
      · rw [hboard4, hw3, hboard2, hw1]
      · rw [hboard4, hh3, hboard2, hh1]
    rw [hinv] at hrev
    exact hne hrev.symm

/-- `sampleMoved` after the second, unrelated shift (bottom row pushed
right). -/
def sampleShifted2 : GameState :=
  match sampleMoved.shiftTiles ⟨⟨0, 2⟩, .right⟩ with
  | .ok s => s
  | .error _ => sampleMoved

/-- `sampleShifted2` after red moves back to (1, 1), completing the
second turn. -/
def sampleMoved2 : GameState :=
  match sampleShifted2.moveCurrentPlayer ⟨1, 1⟩ with
  | .ok s => s
  | .error _ => sampleShifted2

theorem undo_rejection_witness :
    (sampleAfterDownShift.shiftTiles ⟨⟨0, 2⟩, .up⟩ = .error .undoNotAllowed ↔
      ∃ s, sampleAfterDownShift.getLastShiftOp = some s ∧
        (ShiftOp.mk ⟨0, 2⟩ .up).reverse sampleAfterDownShift.board = s) ∧
    sampleMoved.shiftTiles ((ShiftOp.mk ⟨0, 0⟩ .right).reverse sampleMoved.board) =
      .error .undoNotAllowed ∧
    sampleMoved2.shiftTiles ((ShiftOp.mk ⟨0, 0⟩ .right).reverse sampleMoved2.board) ≠
      .error .undoNotAllowed :=
  ⟨undo_rejection.1 sampleAfterDownShift ⟨⟨0, 2⟩, .up⟩ rfl,
   undo_rejection.2.1 sampleRefState sampleShifted sampleMoved ⟨⟨0, 0⟩, .right⟩ ⟨0, 0⟩
     rfl rfl,
   undo_rejection.2.2 sampleRefState sampleShifted sampleMoved sampleShifted2 sampleMoved2
     ⟨⟨0, 0⟩, .right⟩ ⟨⟨0, 2⟩, .right⟩ ⟨0, 0⟩ ⟨1, 1⟩ rfl rfl rfl rfl (by decide)⟩

/-- The (non-strict) order in which Python compares the progress-key
tuples. -/
def pairLe (a b : Int × Int) : Prop :=
  a.1 < b.1 ∨ (a.1 = b.1 ∧ a.2 ≤ b.2)

theorem pairLe_refl (a : Int × Int) : pairLe a a :=
  Or.inr ⟨rfl, le_refl _⟩

theorem pairLe_trans {a b c : Int × Int} (h1 : pairLe a b) (h2 : pairLe b c) :
    pairLe a c := by
  rcases h1 with h1 | ⟨h1, h1'⟩ <;> rcases h2 with h2 | ⟨h2, h2'⟩ <;>
    simp only [pairLe] <;> omega

theorem pairLe_antisymm {a b : Int × Int} (h1 : pairLe a b) (h2 : pairLe b a) :
    a = b := by
  obtain ⟨a1, a2⟩ := a
  obtain ⟨b1, b2⟩ := b
  rcases h1 with h1 | ⟨h1, h1'⟩ <;> rcases h2 with h2 | ⟨h2, h2'⟩ <;>
    simp_all <;> omega

theorem pythonMax_ub (l : List (Int × Int)) (m : Int × Int) :
    pairLe m (pythonMax m l) ∧ ∀ x ∈ l, pairLe x (pythonMax m l) := by
  induction l generalizing m with
  | nil => exact ⟨pairLe_refl m, by simp⟩
  | cons x xs ih =>
    simp only [pythonMax, List.foldl_cons]
    have hstep : pairLe m (if pairLt m x then x else m) ∧
        pairLe x (if pairLt m x then x else m) := by
      by_cases hlt : pairLt m x
      · rw [if_pos hlt]
        exact ⟨Or.imp_right (fun h => ⟨h.1, le_of_lt h.2⟩) hlt, pairLe_refl x⟩
      · rw [if_neg hlt]
        refine ⟨pairLe_refl m, ?_⟩
        simp only [pairLt, not_or, not_and] at hlt
        simp only [pairLe]
        omega
    have := ih (if pairLt m x then x else m)
    refine ⟨pairLe_trans hstep.1 this.1, ?_⟩
    intro y hy
    rcases List.mem_cons.mp hy with h | h
    · subst h
      exact pairLe_trans hstep.2 this.1
    · exact this.2 y h

theorem pythonMax_mem (l : List (Int × Int)) (m : Int × Int) :
    pythonMax m l = m ∨ pythonMax m l ∈ l := by
  induction l generalizing m with
  | nil => exact Or.inl rfl
  | cons x xs ih =>
    have hstep : pythonMax m (x :: xs) = pythonMax (if pairLt m x then x else m) xs := rfl
    rw [hstep]
    rcases ih (if pairLt m x then x else m) with h | h
    · by_cases hlt : pairLt m x
      · rw [if_pos hlt] at h ⊢
        exact Or.inr (List.mem_cons.mpr (Or.inl h))
      · rw [if_neg hlt] at h ⊢
        exact Or.inl h
    · exact Or.inr (List.mem_cons.mpr (Or.inr h))

theorem mem_winnersAux {colors : List Color} {key : Color → Int × Int}
    {mk : Int × Int} {c : Color} :
    c ∈ ((colors.map fun c' => (c', key c')).filter fun p => p.2 = mk).map (·.1) ↔
    (c ∈ colors ∧ key c = mk) := by
  induction colors with
  | nil => simp
  | cons x xs ih =>
    simp only [List.map_cons, List.filter_cons]
    by_cases hx : key x = mk
    · rw [if_pos (by simpa using hx)]
      simp only [List.map_cons, List.mem_cons, ih]
      constructor
      · rintro (h | ⟨h1, h2⟩)
        · subst h
          exact ⟨Or.inl rfl, hx⟩
        · exact ⟨Or.inr h1, h2⟩
      · rintro ⟨h1, h2⟩
        rcases h1 with h | h
        · exact Or.inl h
        · exact Or.inr ⟨h, h2⟩
    · rw [if_neg (by simpa using hx)]
      rw [ih]
      constructor
      · rintro ⟨h1, h2⟩
        exact ⟨List.mem_cons.mpr (Or.inr h1), h2⟩
      · rintro ⟨h1, h2⟩
        rcases List.mem_cons.mp h1 with h | h
        · subst h
          exact absurd h2 hx
        · exact ⟨h, h2⟩

/-- **C6**: Winner computation.  The winners delivered by
`_check_winners` are exactly the player colors maximizing the progress
key (treasure count descending, then squared Euclidean distance from
the current location to the active goal — home if going home, else the
treasure — ascending); and when several players tie for the best rank
and a triggering player who just reached home is among them, the winner
list is exactly that single triggering player. -/
theorem winner_computation :
    (∀ (colors : List Color) (stateOf : Color → PlayerState)
      (secretOf : Color → PlayerSecret) (c : Color),
      c ∈ checkWinners colors stateOf secretOf none ↔
        (c ∈ colors ∧ ∀ c' ∈ colors,
          (secretOf c').treasureCount < (secretOf c).treasureCount ∨
          ((secretOf c').treasureCount = (secretOf c).treasureCount ∧
            squaredEuclideanDistance (stateOf c).location
              (if (secretOf c).isGoingHome then (stateOf c).homeLocation
               else (secretOf c).treasureLocation) ≤
            squaredEuclideanDistance (stateOf c').location
              (if (secretOf c').isGoingHome then (stateOf c').homeLocation
               else (secretOf c').treasureLocation)))) ∧
    (∀ (colors : List Color) (stateOf : Color → PlayerState)
      (secretOf : Color → PlayerSecret) (t : Color),
      (checkWinners colors stateOf secretOf none).length > 1 →
      t ∈ checkWinners colors stateOf secretOf none →
      checkWinners colors stateOf secretOf (some t) = [t]) := by
  constructor
  · intro colors stateOf secretOf c
    cases colors with
    | nil => simp [checkWinners]
    | cons c0 cs =>
      set key := fun c' : Color => orderByGameProgress (stateOf c') (secretOf c') with hkey
      have hsnd : ((cs.map fun c' => (c', key c')).map fun x => x.2) = cs.map key := by
        rw [List.map_map]
        rfl
      have hkeyLe : ∀ a b : Color, pairLe (key a) (key b) ↔
          ((secretOf a).treasureCount < (secretOf b).treasureCount ∨
          ((secretOf a).treasureCount = (secretOf b).treasureCount ∧
            squaredEuclideanDistance (stateOf b).location
              (if (secretOf b).isGoingHome then (stateOf b).homeLocation
               else (secretOf b).treasureLocation) ≤
            squaredEuclideanDistance (stateOf a).location
              (if (secretOf a).isGoingHome then (stateOf a).homeLocation
               else (secretOf a).treasureLocation))) := by
        intro a b
        simp only [pairLe, hkey, orderByGameProgress]
        constructor
        · intro h
          rcases h with h | ⟨h1, h2⟩
          · left
            exact_mod_cast h
          · right
            exact ⟨by exact_mod_cast h1, by omega⟩
        · intro h
          rcases h with h | ⟨h1, h2⟩
          · left
            exact_mod_cast h
          · right
            exact ⟨by exact_mod_cast h1, by omega⟩
      have hiff : c ∈ checkWinners (c0 :: cs) stateOf secretOf none ↔
          (c ∈ c0 :: cs ∧ key c = pythonMax (key c0) (cs.map key)) := by
        simp only [checkWinners, List.map_cons]
        rw [hsnd]
        rw [← List.map_cons (fun c' => (c', key c')) c0 cs]
        exact mem_winnersAux
      rw [hiff]
      have hmax := pythonMax_ub (cs.map key) (key c0)
      have hmem := pythonMax_mem (cs.map key) (key c0)
      have hub : ∀ c' ∈ c0 :: cs, pairLe (key c') (pythonMax (key c0) (cs.map key)) := by
        intro c' hc'
        rcases List.mem_cons.mp hc' with h | h
        · subst h
          exact hmax.1
        · exact hmax.2 (key c') (List.mem_map_of_mem key h)
      have hattain : ∃ ca ∈ c0 :: cs, key ca = pythonMax (key c0) (cs.map key) := by
        rcases hmem with h | h
        · exact ⟨c0, List.mem_cons_self _ _, h.symm⟩
        · obtain ⟨ca, hca, hk⟩ := List.mem_map.mp h
          exact ⟨ca, List.mem_cons.mpr (Or.inr hca), hk⟩
      constructor
      · rintro ⟨hcin, hkeq⟩
        refine ⟨hcin, ?_⟩
        intro c' hc'
        rw [← hkeyLe, hkeq]
        exact hub c' hc'
      · rintro ⟨hcin, hall⟩
        refine ⟨hcin, ?_⟩
        obtain ⟨ca, hcain, hka⟩ := hattain
        refine pairLe_antisymm (hub c hcin) ?_
        rw [← hka, hkeyLe]
        exact hall ca hcain
  · intro colors stateOf secretOf t h1 h2
    cases colors with
    | nil => simp [checkWinners] at h2
    | cons c0 cs =>
      simp only [checkWinners, List.map_cons] at h1 h2 ⊢
      rw [if_pos ⟨h1, h2⟩]

/-- A constant player-state table for the winner-computation witness. -/
def sampleStateOf : Color → PlayerState :=
  fun _ => samplePlayerRed

/-- A constant player-secret table for the winner-computation witness. -/
def sampleSecretOf : Color → PlayerSecret :=
  fun _ => sampleSecret

theorem winner_computation_witness :
    "red" ∈ checkWinners ["red", "green"] sampleStateOf sampleSecretOf none ∧
    checkWinners ["red", "green"] sampleStateOf sampleSecretOf (some "green") = ["green"] :=
  ⟨(winner_computation.1 ["red", "green"] sampleStateOf sampleSecretOf "red").mpr
    ⟨by decide, fun c' _ => Or.inr ⟨rfl, le_refl _⟩⟩,
   winner_computation.2 ["red", "green"] sampleStateOf sampleSecretOf "green"
     (by decide) (by decide)⟩

theorem sampleBoard_valid : sampleBoard.Valid := by
  refine ⟨by norm_num [sampleBoard], by norm_num [sampleBoard], ?_, ?_⟩
  · intro c
    simp only [sampleBoard, Board.inBounds]
    by_cases h : 0 ≤ c.col ∧ c.col < 3 ∧ 0 ≤ c.row ∧ c.row < 3
    · rw [if_pos h]
      simp only [Option.isSome_some, true_iff]
      push_cast
      omega
    · rw [if_neg h]
      simpa using h
  · intro c c' hne t t' ht ht'
    obtain ⟨ccol, crow⟩ := c
    obtain ⟨ccol', crow'⟩ := c'
    simp only [sampleBoard, sampleTile] at ht ht'
    by_cases h1 : 0 ≤ ccol ∧ ccol < 3 ∧ 0 ≤ crow ∧ crow < 3
    · rw [if_pos h1] at ht
      by_cases h2 : 0 ≤ ccol' ∧ ccol' < 3 ∧ 0 ≤ crow' ∧ crow' < 3
      · rw [if_pos h2] at ht'
        cases ht
        cases ht'
        intro hg
        simp only [Prod.mk.injEq] at hg
        apply hne
        simp only [Coord.mk.injEq]
        have hg1 : ((2 : Int) * (ccol + 3 * crow)).toNat
            = ((2 : Int) * (ccol' + 3 * crow')).toNat := hg.1
        omega
      · rw [if_neg h2] at ht'
        cases ht'
    · rw [if_neg h1] at ht
      cases ht

/-- **C3 (counterexample)**: on the (constructor-valid) 3×3 sample
board, inserting at the valid location (0, 0) travelling RIGHT a tile
whose gem pair (2, 3) coincides with a surviving tile's raises
`ValueError` from `Board.__init__`'s gem re-validation inside
`with_tiles` — `slide_and_insert_tile` is not total in the inserted
tile. -/
theorem slide_and_insert_gem_clash_cex :
    sampleBoard.Valid ∧
    (⟨0, 0⟩ : Coord) ∈ sampleBoard.getValidInsertLocations .right ∧
    sampleBoard.slideAndInsertTile ⟨0, 0⟩ .right ⟨.cross, 0, (2, 3)⟩ =
      .error .valueError :=
  ⟨sampleBoard_valid, by decide, rfl⟩

theorem coord_ext {a b : Coord} (h1 : a.col = b.col) (h2 : a.row = b.row) : a = b := by
  cases a
  cases b
  simp only [Coord.mk.injEq]
  exact ⟨h1, h2⟩

theorem mem_coordList {b : Board} {k : Coord} : k ∈ b.coordList ↔ b.inBounds k := by
  constructor
  · intro hk
    obtain ⟨r, hr, hk2⟩ := List.mem_flatMap.mp hk
    obtain ⟨cc, hcc, he⟩ := List.mem_map.mp hk2
    rw [List.mem_range] at hr hcc
    subst he
    refine ⟨Int.natCast_nonneg _, ?_, Int.natCast_nonneg _, ?_⟩
    · show ((cc : Int)) < (b.width : Int)
      exact_mod_cast hcc
    · show ((r : Int)) < (b.height : Int)
      exact_mod_cast hr
  · intro h
    obtain ⟨kc, kr⟩ := k
    have h1 : 0 ≤ kc := h.1
    have h2 : kc < (b.width : Int) := h.2.1
    have h3 : 0 ≤ kr := h.2.2.1
    have h4 : kr < (b.height : Int) := h.2.2.2
    clear h
    refine List.mem_flatMap.mpr ⟨kr.toNat, List.mem_range.mpr (by omega), ?_⟩
    refine List.mem_map.mpr ⟨kc.toNat, List.mem_range.mpr (by omega), ?_⟩
    simp only [Coord.mk.injEq]
    exact ⟨Int.toNat_of_nonneg h1, Int.toNat_of_nonneg h3⟩

theorem coordList_nodup (b : Board) : b.coordList.Nodup := by
  unfold Board.coordList
  rw [List.nodup_flatMap]
  constructor
  · intro r _
    refine List.Nodup.map ?_ (List.nodup_range _)
    intro a a' ha
    have := congrArg Coord.col ha
    simpa using this
  · refine List.Pairwise.imp ?_ (List.pairwise_lt_range b.height)
    intro r r' hrr
    intro z hz hz'
    simp only [Function.onFun, List.mem_map] at hz hz'
    obtain ⟨cc, _, rfl⟩ := hz
    obtain ⟨cc', _, he⟩ := hz'
    have := congrArg Coord.row he
    simp only [] at this
    omega

theorem nodup_filterMap_of_inj {α β : Type} {l : List α} {f : α → Option β}
    (hl : l.Nodup)
    (hinj : ∀ a ∈ l, ∀ a' ∈ l, ∀ y, f a = some y → f a' = some y → a = a') :
    (l.filterMap f).Nodup := by
  induction l with
  | nil => simp
  | cons a l ih =>
    rw [List.filterMap_cons]
    have hl' := (List.nodup_cons.mp hl).2
    have ha := (List.nodup_cons.mp hl).1
    have hinj' : ∀ x ∈ l, ∀ x' ∈ l, ∀ y, f x = some y → f x' = some y → x = x' :=
      fun x hx x' hx' y h h' =>
        hinj x (List.mem_cons_of_mem a hx) x' (List.mem_cons_of_mem a hx') y h h'
    cases hfa : f a with
    | none => exact ih hl' hinj'
    | some y =>
      rw [List.nodup_cons]
      refine ⟨?_, ih hl' hinj'⟩
      intro hy
      obtain ⟨a', ha', hfa'⟩ := List.mem_filterMap.mp hy
      have : a = a' :=
        hinj a (List.mem_cons_self a l) a' (List.mem_cons_of_mem a ha') y hfa hfa'
      exact ha (this ▸ ha')

theorem mem_validInsert_facts {b : Board} {c : Coord} {d : Direction}
    (hh : 0 < b.height) (hw : 0 < b.width)
    (hmem : c ∈ b.getValidInsertLocations d) :
    b.inBounds c ∧ isMoveable c.col ∧ isMoveable c.row ∧
      ((d = .down ∧ c.row = 0) ∨ (d = .up ∧ c.row = (b.height : Int) - 1) ∨
       (d = .right ∧ c.col = 0) ∨ (d = .left ∧ c.col = (b.width : Int) - 1)) := by
  cases d with
  | down =>
    simp only [Board.getValidInsertLocations, Direction.isVertical, if_pos] at hmem
    rw [if_neg (by norm_num [isMoveable])] at hmem
    simp only [Finset.mem_image, Finset.mem_filter, Finset.mem_range] at hmem
    obtain ⟨a, ⟨ha, hma⟩, hcoord⟩ := hmem
    have hcol : c.col = (a : Int) := (congrArg Coord.col hcoord).symm
    have hrow : c.row = 0 := (congrArg Coord.row hcoord).symm
    refine ⟨⟨by omega, by omega, by omega, by omega⟩, ?_, ?_, Or.inl ⟨rfl, hrow⟩⟩
    · rw [hcol]; exact hma
    · rw [hrow]; norm_num [isMoveable]
  | up =>
    simp only [Board.getValidInsertLocations, Direction.isVertical, if_true] at hmem
    have hne : Direction.up ≠ Direction.down := by decide
    rw [if_neg hne] at hmem
    by_cases hg : isMoveable ((b.height : Int) - 1)
    · rw [if_neg (not_not_intro hg)] at hmem
      simp only [Finset.mem_image, Finset.mem_filter, Finset.mem_range] at hmem
      obtain ⟨a, ⟨ha, hma⟩, hcoord⟩ := hmem
      have hcol : c.col = (a : Int) := (congrArg Coord.col hcoord).symm
      have hrow : c.row = (b.height : Int) - 1 := (congrArg Coord.row hcoord).symm
      refine ⟨⟨by omega, by omega, by omega, by omega⟩, ?_, ?_,
        Or.inr (Or.inl ⟨rfl, hrow⟩)⟩
      · rw [hcol]; exact hma
      · rw [hrow]; exact hg
    · rw [if_pos hg] at hmem
      exact absurd hmem (Finset.not_mem_empty c)
  | right =>
    simp only [Board.getValidInsertLocations, Direction.isVertical,
      Bool.false_eq_true, if_false, if_true] at hmem
    rw [if_neg (by norm_num [isMoveable])] at hmem
    simp only [Finset.mem_image, Finset.mem_filter, Finset.mem_range] at hmem
    obtain ⟨a, ⟨ha, hma⟩, hcoord⟩ := hmem
    have hcol : c.col = 0 := (congrArg Coord.col hcoord).symm
    have hrow : c.row = (a : Int) := (congrArg Coord.row hcoord).symm
    refine ⟨⟨by omega, by omega, by omega, by omega⟩, ?_, ?_,
      Or.inr (Or.inr (Or.inl ⟨rfl, hcol⟩))⟩
    · rw [hcol]; norm_num [isMoveable]
    · rw [hrow]; exact hma
  | left =>
    simp only [Board.getValidInsertLocations, Direction.isVertical,
      Bool.false_eq_true, if_false] at hmem
    have hne : Direction.left ≠ Direction.right := by decide
    rw [if_neg hne] at hmem
    by_cases hg : isMoveable ((b.width : Int) - 1)
    · rw [if_neg (not_not_intro hg)] at hmem
      simp only [Finset.mem_image, Finset.mem_filter, Finset.mem_range] at hmem
      obtain ⟨a, ⟨ha, hma⟩, hcoord⟩ := hmem
      have hcol : c.col = (b.width : Int) - 1 := (congrArg Coord.col hcoord).symm
      have hrow : c.row = (a : Int) := (congrArg Coord.row hcoord).symm
      refine ⟨⟨by omega, by omega, by omega, by omega⟩, ?_, ?_,
        Or.inr (Or.inr (Or.inr ⟨rfl, hcol⟩))⟩
      · rw [hcol]; exact hg
      · rw [hrow]; exact hma
    · rw [if_pos hg] at hmem
      exact absurd hmem (Finset.not_mem_empty c)

theorem sameLine_horiz {c k : Coord} {d : Direction} (hvert : d.isVertical = false) :
    sameLine c k d ↔ k.row = c.row := by
  unfold sameLine
  rw [hvert]
  simp

theorem sameLine_vert {c k : Coord} {d : Direction} (hvert : d.isVertical = true) :
    sameLine c k d ↔ k.col = c.col := by
  unfold sameLine
  rw [hvert]
  simp

theorem slideAndInsert_row_spec {b : Board} {c : Coord} {d : Direction} (tile : Tile)
    (hv : b.Valid) (hib : b.inBounds c)
    (hass : b.assertValidShiftAndInsert c d = .ok ())
    (hvert : d.isVertical = false) (hdy : d.dy = 0)
    (hdx : (d.dx = 1 ∧ c.col = 0) ∨ (d.dx = -1 ∧ c.col = (b.width : Int) - 1))
    (hdropin : b.inBounds (b.rowDroppedCoord c.row d))
    (hfresh : ∀ k t', b.tiles k = some t' → t'.gems ≠ tile.gems) :
    SlideSpec b c d tile (b.slideAndInsertTile c d tile) := by
  obtain ⟨hw0, hh0, htot, hgem⟩ := hv
  obtain ⟨ej, hej⟩ : ∃ t, b.tiles (b.rowDroppedCoord c.row d) = some t :=
    Option.isSome_iff_exists.mp ((htot _).mpr hdropin)
  have hins : b.slidRowInsert c d tile c = some tile := by
    show (if c = c then some tile else _) = some tile
    rw [if_pos rfl]
  have key : ∀ z : Coord, b.inBounds z → z ≠ c →
      ∃ src, b.inBounds src ∧ b.slidRowInsert c d tile z = b.tiles src ∧
        ((z.row = c.row ∧ src = (⟨z.col - d.dx, c.row⟩ : Coord)) ∨
         (z.row ≠ c.row ∧ src = z)) := by
    intro z hz hzc
    by_cases hr : z.row = c.row
    · have hzcol : z.col ≠ c.col := fun he => hzc (coord_ext he hr)
      have hin1 : 0 ≤ z.col := hz.1
      have hin2 : z.col < (b.width : Int) := hz.2.1
      have hbnd : 0 ≤ z.col - d.dx ∧ z.col - d.dx < (b.width : Int) := by omega
      refine ⟨⟨z.col - d.dx, c.row⟩, ⟨hbnd.1, hbnd.2, hib.2.2.1, hib.2.2.2⟩, ?_,
        Or.inl ⟨hr, rfl⟩⟩
      show (if z = c then some tile else
        if z.row = c.row then
          if 0 ≤ z.col ∧ z.col < (b.width : Int) ∧
              0 ≤ z.col - d.dx ∧ z.col - d.dx < (b.width : Int)
          then b.tiles ⟨z.col - d.dx, c.row⟩ else none
        else b.tiles z) = b.tiles ⟨z.col - d.dx, c.row⟩
      rw [if_neg hzc, if_pos hr, if_pos ⟨hin1, hin2, hbnd.1, hbnd.2⟩]
    · refine ⟨z, hz, ?_, Or.inr ⟨hr, rfl⟩⟩
      show (if z = c then some tile else
        if z.row = c.row then
          if 0 ≤ z.col ∧ z.col < (b.width : Int) ∧
              0 ≤ z.col - d.dx ∧ z.col - d.dx < (b.width : Int)
          then b.tiles ⟨z.col - d.dx, c.row⟩ else none
        else b.tiles z) = b.tiles z
      rw [if_neg hzc, if_neg hr]
  have keyNone : ∀ z : Coord, ¬ b.inBounds z → b.slidRowInsert c d tile z = none := by
    intro z hz
    have hzc : z ≠ c := fun he => hz (he ▸ hib)
    show (if z = c then some tile else
      if z.row = c.row then
        if 0 ≤ z.col ∧ z.col < (b.width : Int) ∧
            0 ≤ z.col - d.dx ∧ z.col - d.dx < (b.width : Int)
        then b.tiles ⟨z.col - d.dx, c.row⟩ else none
      else b.tiles z) = none
    rw [if_neg hzc]
    by_cases hr : z.row = c.row
    · rw [if_pos hr]
      rw [if_neg (fun hbb => hz ⟨hbb.1, hbb.2.1,
        (show (0:Int) ≤ z.row from by rw [hr]; exact hib.2.2.1),
        (show z.row < (b.height : Int) from by rw [hr]; exact hib.2.2.2)⟩)]
    · rw [if_neg hr]
      exact Option.not_isSome_iff_eq_none.mp (fun hs => hz ((htot z).mp hs))
  have hwiSome : ∀ k, ((b.slidRowInsert c d tile) k).isSome = true ↔ b.inBounds k := by
    intro k
    by_cases hkc : k = c
    · subst hkc
      rw [hins]
      simp only [Option.isSome_some, true_iff]
      exact hib
    · by_cases hin : b.inBounds k
      · obtain ⟨src, hsin, heq, _⟩ := key k hin hkc
        rw [heq]
        exact iff_of_true ((htot _).mpr hsin) hin
      · rw [keyNone k hin]
        simp only [Option.isSome_none, Bool.false_eq_true, false_iff]
        exact hin
  have hall : (b.coordList.all fun k => ((b.slidRowInsert c d tile) k).isSome) = true := by
    rw [List.all_eq_true]
    intro k hk
    exact (hwiSome k).mpr (mem_coordList.mp hk)
  have hnd : (b.coordList.filterMap fun k =>
      ((b.slidRowInsert c d tile) k).map (·.gems)).Nodup := by
    apply nodup_filterMap_of_inj (coordList_nodup b)
    intro k hk k' hk' y hy hy'
    have hkin : b.inBounds k := mem_coordList.mp hk
    have hk'in : b.inBounds k' := mem_coordList.mp hk'
    by_cases hkc : k = c <;> by_cases hk'c : k' = c
    · rw [hkc, hk'c]
    · exfalso
      subst hkc
      rw [hins] at hy
      have hyv : tile.gems = y := Option.some.inj hy
      obtain ⟨src, hsin, heq, _⟩ := key k' hk'in hk'c
      rw [heq] at hy'
      obtain ⟨t', ht', hgt⟩ := Option.map_eq_some'.mp hy'
      exact absurd (hgt.trans hyv.symm) (hfresh src t' ht')
    · exfalso
      subst hk'c
      rw [hins] at hy'
      have hyv : tile.gems = y := Option.some.inj hy'
      obtain ⟨src, hsin, heq, _⟩ := key k hkin hkc
      rw [heq] at hy
      obtain ⟨t', ht', hgt⟩ := Option.map_eq_some'.mp hy
      exact absurd (hgt.trans hyv.symm) (hfresh src t' ht')
    · obtain ⟨s1, hs1in, he1, htag1⟩ := key k hkin hkc
      obtain ⟨s2, hs2in, he2, htag2⟩ := key k' hk'in hk'c
      rw [he1] at hy
      rw [he2] at hy'
      obtain ⟨t1, ht1, hg1⟩ := Option.map_eq_some'.mp hy
      obtain ⟨t2, ht2, hg2⟩ := Option.map_eq_some'.mp hy'
      have hss : s1 = s2 := by
        by_contra hne
        exact hgem s1 s2 hne t1 t2 ht1 ht2 (hg1.trans hg2.symm)
      rcases htag1 with ⟨hr1, he1'⟩ | ⟨hr1, he1'⟩ <;>
        rcases htag2 with ⟨hr2, he2'⟩ | ⟨hr2, he2'⟩
      · have he : (⟨k.col - d.dx, c.row⟩ : Coord) = ⟨k'.col - d.dx, c.row⟩ :=
          he1'.symm.trans (hss.trans he2')
        have hcol : k.col - d.dx = k'.col - d.dx := congrArg Coord.col he
        exact coord_ext (show k.col = k'.col by omega) (hr1.trans hr2.symm)
      · have he : (⟨k.col - d.dx, c.row⟩ : Coord) = k' :=
          he1'.symm.trans (hss.trans he2')
        have hrow := congrArg Coord.row he
        exact absurd hrow.symm hr2
      · have he : k = (⟨k'.col - d.dx, c.row⟩ : Coord) :=
          he1'.symm.trans (hss.trans he2')
        have hrow := congrArg Coord.row he
        exact absurd hrow hr1
      · exact he1'.symm.trans (hss.trans he2')
  have hwt : b.withTiles (b.slidRowInsert c d tile) =
      .ok ⟨b.width, b.height, b.slidRowInsert c d tile⟩ := by
    unfold Board.withTiles
    rw [if_neg (show ¬(b.width = 0 ∨ b.height = 0) by omega),
      if_neg (not_not_intro hall), if_neg (not_not_intro hnd)]
  have harg : (fun k => if k = c then some tile
      else if k.row = c.row then
        if 0 ≤ k.col ∧ k.col < (b.width : Int) ∧
            0 ≤ k.col - d.dx ∧ k.col - d.dx < (b.width : Int)
        then b.tiles ⟨k.col - d.dx, c.row⟩ else none
      else b.tiles k) = b.slidRowInsert c d tile := rfl
  have hsel : (if d.isVertical then b.slideColumn c.col d else b.slideRow c.row d)
      = b.slideRow c.row d := by rw [hvert]; rfl
  refine ⟨⟨b.width, b.height, b.slidRowInsert c d tile⟩, ej, (b.slideRow c.row d).2.2,
    ?_, rfl, rfl, hwiSome, hins, ?_, ?_, ?_, ?_, ?_, ?_⟩
  · simp only [Board.slideAndInsertTile, bind, Except.bind]
    rw [hsel]
    simp only [Board.slideRow]
    rw [hej]
    simp only []
    rw [hass]
    simp only []
    rw [harg, hwt]
  · show b.tiles (b.droppedOf c d) = some ej
    have hdo : b.droppedOf c d = b.rowDroppedCoord c.row d := by
      unfold Board.droppedOf
      rw [hvert]
      rfl
    rw [hdo]
    exact hej
  · intro k hnl
    have hr : k.row ≠ c.row := fun he => hnl ((sameLine_horiz hvert).mpr he)
    have hkc : k ≠ c := fun he => hr (congrArg Coord.row he)
    show (if k = c then some tile else
      if k.row = c.row then
        if 0 ≤ k.col ∧ k.col < (b.width : Int) ∧
            0 ≤ k.col - d.dx ∧ k.col - d.dx < (b.width : Int)
        then b.tiles ⟨k.col - d.dx, c.row⟩ else none
      else b.tiles k) = b.tiles k
    rw [if_neg hkc, if_neg hr]
  · intro k hl hin hstep
    have hr : k.row = c.row := (sameLine_horiz hvert).mp hl
    have hsc : stepCoord k d = ⟨k.col + d.dx, k.row⟩ := by
      show (⟨k.col + d.dx, k.row + d.dy⟩ : Coord) = ⟨k.col + d.dx, k.row⟩
      rw [hdy, add_zero]
    rw [hsc] at hstep
    rw [hsc]
    have hs1 : 0 ≤ k.col + d.dx := hstep.1
    have hs2 : k.col + d.dx < (b.width : Int) := hstep.2.1
    have hk1 : 0 ≤ k.col := hin.1
    have hk2 : k.col < (b.width : Int) := hin.2.1
    have hcne : k.col + d.dx ≠ c.col := by omega
    have hne : (⟨k.col + d.dx, k.row⟩ : Coord) ≠ c := fun he => hcne (congrArg Coord.col he)
    show (if (⟨k.col + d.dx, k.row⟩ : Coord) = c then some tile else
      if k.row = c.row then
        if 0 ≤ k.col + d.dx ∧ k.col + d.dx < (b.width : Int) ∧
            0 ≤ k.col + d.dx - d.dx ∧ k.col + d.dx - d.dx < (b.width : Int)
        then b.tiles ⟨k.col + d.dx - d.dx, c.row⟩ else none
      else b.tiles ⟨k.col + d.dx, k.row⟩) = b.tiles k
    rw [if_neg hne, if_pos hr,
      if_pos ⟨hs1, hs2, (show (0:Int) ≤ k.col + d.dx - d.dx by omega),
        (show k.col + d.dx - d.dx < (b.width : Int) by omega)⟩,
      show (⟨k.col + d.dx - d.dx, c.row⟩ : Coord) = k from
        coord_ext (show k.col + d.dx - d.dx = k.col by omega) hr.symm]
  · have hdo : b.droppedOf c d = b.rowDroppedCoord c.row d := by
      unfold Board.droppedOf
      rw [hvert]
      rfl
    show (b.slideRow c.row d).2.2.deletions = {b.droppedOf c d}
    rw [hdo]
    rfl
  · intro k hl hin hstep
    have hr : k.row = c.row := (sameLine_horiz hvert).mp hl
    have hsc : stepCoord k d = ⟨k.col + d.dx, k.row⟩ := by
      show (⟨k.col + d.dx, k.row + d.dy⟩ : Coord) = ⟨k.col + d.dx, k.row⟩
      rw [hdy, add_zero]
    rw [hsc] at hstep
    rw [hsc]
    show (if k.row = c.row ∧ 0 ≤ k.col ∧ k.col < (b.width : Int) ∧
        0 ≤ k.col + d.dx ∧ k.col + d.dx < (b.width : Int)
      then some (⟨k.col + d.dx, c.row⟩ : Coord) else none)
      = some (⟨k.col + d.dx, k.row⟩ : Coord)
    rw [if_pos ⟨hr, hin.1, hin.2.1, hstep.1, hstep.2.1⟩]
    exact congrArg some (coord_ext rfl hr.symm)
  · intro k hnc
    show (if k.row = c.row ∧ 0 ≤ k.col ∧ k.col < (b.width : Int) ∧
        0 ≤ k.col + d.dx ∧ k.col + d.dx < (b.width : Int)
      then some (⟨k.col + d.dx, c.row⟩ : Coord) else none) = none
    apply if_neg
    intro hC
    apply hnc
    refine ⟨(sameLine_horiz hvert).mpr hC.1, ⟨hC.2.1, hC.2.2.1, ?_, ?_⟩, ?_⟩
    · rw [hC.1]
      exact hib.2.2.1
    · rw [hC.1]
      exact hib.2.2.2
    · rw [show stepCoord k d = (⟨k.col + d.dx, k.row⟩ : Coord) from by
        show (⟨k.col + d.dx, k.row + d.dy⟩ : Coord) = ⟨k.col + d.dx, k.row⟩
        rw [hdy, add_zero]]
      exact ⟨hC.2.2.2.1, hC.2.2.2.2, by rw [hC.1]; exact hib.2.2.1,
        by rw [hC.1]; exact hib.2.2.2⟩

theorem slideAndInsert_col_spec {b : Board} {c : Coord} {d : Direction} (tile : Tile)
    (hv : b.Valid) (hib : b.inBounds c)
    (hass : b.assertValidShiftAndInsert c d = .ok ())
    (hvert : d.isVertical = true) (hdx0 : d.dx = 0)
    (hdy : (d.dy = 1 ∧ c.row = 0) ∨ (d.dy = -1 ∧ c.row = (b.height : Int) - 1))
    (hdropin : b.inBounds (b.colDroppedCoord c.col d))
    (hfresh : ∀ k t', b.tiles k = some t' → t'.gems ≠ tile.gems) :
    SlideSpec b c d tile (b.slideAndInsertTile c d tile) := by
  obtain ⟨hw0, hh0, htot, hgem⟩ := hv
  obtain ⟨ej, hej⟩ : ∃ t, b.tiles (b.colDroppedCoord c.col d) = some t :=
    Option.isSome_iff_exists.mp ((htot _).mpr hdropin)
  have hins : b.slidColInsert c d tile c = some tile := by
    show (if c = c then some tile else _) = some tile
    rw [if_pos rfl]
  have key : ∀ z : Coord, b.inBounds z → z ≠ c →
      ∃ src, b.inBounds src ∧ b.slidColInsert c d tile z = b.tiles src ∧
        ((z.col = c.col ∧ src = (⟨c.col, z.row - d.dy⟩ : Coord)) ∨
         (z.col ≠ c.col ∧ src = z)) := by
    intro z hz hzc
    by_cases hr : z.col = c.col
    · have hzrow : z.row ≠ c.row := fun he => hzc (coord_ext hr he)
      have hin1 : 0 ≤ z.row := hz.2.2.1
      have hin2 : z.row < (b.height : Int) := hz.2.2.2
      have hbnd : 0 ≤ z.row - d.dy ∧ z.row - d.dy < (b.height : Int) := by omega
      refine ⟨⟨c.col, z.row - d.dy⟩, ⟨hib.1, hib.2.1, hbnd.1, hbnd.2⟩, ?_,
        Or.inl ⟨hr, rfl⟩⟩
      show (if z = c then some tile else
        if z.col = c.col then
          if 0 ≤ z.row ∧ z.row < (b.height : Int) ∧
              0 ≤ z.row - d.dy ∧ z.row - d.dy < (b.height : Int)
          then b.tiles ⟨c.col, z.row - d.dy⟩ else none
        else b.tiles z) = b.tiles ⟨c.col, z.row - d.dy⟩
      rw [if_neg hzc, if_pos hr, if_pos ⟨hin1, hin2, hbnd.1, hbnd.2⟩]
    · refine ⟨z, hz, ?_, Or.inr ⟨hr, rfl⟩⟩
      show (if z = c then some tile else
        if z.col = c.col then
          if 0 ≤ z.row ∧ z.row < (b.height : Int) ∧
              0 ≤ z.row - d.dy ∧ z.row - d.dy < (b.height : Int)
          then b.tiles ⟨c.col, z.row - d.dy⟩ else none
        else b.tiles z) = b.tiles z
      rw [if_neg hzc, if_neg hr]
  have keyNone : ∀ z : Coord, ¬ b.inBounds z → b.slidColInsert c d tile z = none := by
    intro z hz
    have hzc : z ≠ c := fun he => hz (he ▸ hib)
    show (if z = c then some tile else
      if z.col = c.col then
        if 0 ≤ z.row ∧ z.row < (b.height : Int) ∧
            0 ≤ z.row - d.dy ∧ z.row - d.dy < (b.height : Int)
        then b.tiles ⟨c.col, z.row - d.dy⟩ else none
      else b.tiles z) = none
    rw [if_neg hzc]
    by_cases hr : z.col = c.col
    · rw [if_pos hr]
      rw [if_neg (fun hbb => hz ⟨
        (show (0:Int) ≤ z.col from by rw [hr]; exact hib.1),
        (show z.col < (b.width : Int) from by rw [hr]; exact hib.2.1),
        hbb.1, hbb.2.1⟩)]
    · rw [if_neg hr]
      exact Option.not_isSome_iff_eq_none.mp (fun hs => hz ((htot z).mp hs))
  have hwiSome : ∀ k, ((b.slidColInsert c d tile) k).isSome = true ↔ b.inBounds k := by
    intro k
    by_cases hkc : k = c
    · subst hkc
      rw [hins]
      simp only [Option.isSome_some, true_iff]
      exact hib
    · by_cases hin : b.inBounds k
      · obtain ⟨src, hsin, heq, _⟩ := key k hin hkc
        rw [heq]
        exact iff_of_true ((htot _).mpr hsin) hin
      · rw [keyNone k hin]
        simp only [Option.isSome_none, Bool.false_eq_true, false_iff]
        exact hin
  have hall : (b.coordList.all fun k => ((b.slidColInsert c d tile) k).isSome) = true := by
    rw [List.all_eq_true]
    intro k hk
    exact (hwiSome k).mpr (mem_coordList.mp hk)
  have hnd : (b.coordList.filterMap fun k =>
      ((b.slidColInsert c d tile) k).map (·.gems)).Nodup := by
    apply nodup_filterMap_of_inj (coordList_nodup b)
    intro k hk k' hk' y hy hy'
    have hkin : b.inBounds k := mem_coordList.mp hk
    have hk'in : b.inBounds k' := mem_coordList.mp hk'
    by_cases hkc : k = c <;> by_cases hk'c : k' = c
    · rw [hkc, hk'c]
    · exfalso
      subst hkc
      rw [hins] at hy
      have hyv : tile.gems = y := Option.some.inj hy
      obtain ⟨src, hsin, heq, _⟩ := key k' hk'in hk'c
      rw [heq] at hy'
      obtain ⟨t', ht', hgt⟩ := Option.map_eq_some'.mp hy'
      exact absurd (hgt.trans hyv.symm) (hfresh src t' ht')
    · exfalso
      subst hk'c
      rw [hins] at hy'
      have hyv : tile.gems = y := Option.some.inj hy'
      obtain ⟨src, hsin, heq, _⟩ := key k hkin hkc
      rw [heq] at hy
      obtain ⟨t', ht', hgt⟩ := Option.map_eq_some'.mp hy
      exact absurd (hgt.trans hyv.symm) (hfresh src t' ht')
    · obtain ⟨s1, hs1in, he1, htag1⟩ := key k hkin hkc
      obtain ⟨s2, hs2in, he2, htag2⟩ := key k' hk'in hk'c
      rw [he1] at hy
      rw [he2] at hy'
      obtain ⟨t1, ht1, hg1⟩ := Option.map_eq_some'.mp hy
      obtain ⟨t2, ht2, hg2⟩ := Option.map_eq_some'.mp hy'
      have hss : s1 = s2 := by
        by_contra hne
        exact hgem s1 s2 hne t1 t2 ht1 ht2 (hg1.trans hg2.symm)
      rcases htag1 with ⟨hr1, he1'⟩ | ⟨hr1, he1'⟩ <;>
        rcases htag2 with ⟨hr2, he2'⟩ | ⟨hr2, he2'⟩
      · have he : (⟨c.col, k.row - d.dy⟩ : Coord) = ⟨c.col, k'.row - d.dy⟩ :=
          he1'.symm.trans (hss.trans he2')
        have hrow : k.row - d.dy = k'.row - d.dy := congrArg Coord.row he
        exact coord_ext (hr1.trans hr2.symm) (show k.row = k'.row by omega)
      · have he : (⟨c.col, k.row - d.dy⟩ : Coord) = k' :=
          he1'.symm.trans (hss.trans he2')
        have hcol := congrArg Coord.col he
        exact absurd hcol.symm hr2
      · have he : k = (⟨c.col, k'.row - d.dy⟩ : Coord) :=
          he1'.symm.trans (hss.trans he2')
        have hcol := congrArg Coord.col he
        exact absurd hcol hr1
      · exact he1'.symm.trans (hss.trans he2')
  have hwt : b.withTiles (b.slidColInsert c d tile) =
      .ok ⟨b.width, b.height, b.slidColInsert c d tile⟩ := by
    unfold Board.withTiles
    rw [if_neg (show ¬(b.width = 0 ∨ b.height = 0) by omega),
      if_neg (not_not_intro hall), if_neg (not_not_intro hnd)]
  have harg : (fun k => if k = c then some tile
      else if k.col = c.col then
        if 0 ≤ k.row ∧ k.row < (b.height : Int) ∧
            0 ≤ k.row - d.dy ∧ k.row - d.dy < (b.height : Int)
        then b.tiles ⟨c.col, k.row - d.dy⟩ else none
      else b.tiles k) = b.slidColInsert c d tile := rfl
  have hsel : (if d.isVertical then b.slideColumn c.col d else b.slideRow c.row d)
      = b.slideColumn c.col d := by rw [hvert]; rfl
  refine ⟨⟨b.width, b.height, b.slidColInsert c d tile⟩, ej, (b.slideColumn c.col d).2.2,
    ?_, rfl, rfl, hwiSome, hins, ?_, ?_, ?_, ?_, ?_, ?_⟩
  · simp only [Board.slideAndInsertTile, bind, Except.bind]
    rw [hsel]
    simp only [Board.slideColumn]
    rw [hej]
    simp only []
    rw [hass]
    simp only []
    rw [harg, hwt]
  · show b.tiles (b.droppedOf c d) = some ej
    have hdo : b.droppedOf c d = b.colDroppedCoord c.col d := by
      unfold Board.droppedOf
      rw [hvert]
      rfl
    rw [hdo]
    exact hej
  · intro k hnl
    have hr : k.col ≠ c.col := fun he => hnl ((sameLine_vert hvert).mpr he)
    have hkc : k ≠ c := fun he => hr (congrArg Coord.col he)
    show (if k = c then some tile else
      if k.col = c.col then
        if 0 ≤ k.row ∧ k.row < (b.height : Int) ∧
            0 ≤ k.row - d.dy ∧ k.row - d.dy < (b.height : Int)
        then b.tiles ⟨c.col, k.row - d.dy⟩ else none
      else b.tiles k) = b.tiles k
    rw [if_neg hkc, if_neg hr]
  · intro k hl hin hstep
    have hr : k.col = c.col := (sameLine_vert hvert).mp hl
    have hsc : stepCoord k d = ⟨k.col, k.row + d.dy⟩ := by
      show (⟨k.col + d.dx, k.row + d.dy⟩ : Coord) = ⟨k.col, k.row + d.dy⟩
      rw [hdx0, add_zero]
    rw [hsc] at hstep
    rw [hsc]
    have hs1 : 0 ≤ k.row + d.dy := hstep.2.2.1
    have hs2 : k.row + d.dy < (b.height : Int) := hstep.2.2.2
    have hk1 : 0 ≤ k.row := hin.2.2.1
    have hk2 : k.row < (b.height : Int) := hin.2.2.2
    have hcne : k.row + d.dy ≠ c.row := by omega
    have hne : (⟨k.col, k.row + d.dy⟩ : Coord) ≠ c := fun he => hcne (congrArg Coord.row he)
    show (if (⟨k.col, k.row + d.dy⟩ : Coord) = c then some tile else
      if k.col = c.col then
        if 0 ≤ k.row + d.dy ∧ k.row + d.dy < (b.height : Int) ∧
            0 ≤ k.row + d.dy - d.dy ∧ k.row + d.dy - d.dy < (b.height : Int)
        then b.tiles ⟨c.col, k.row + d.dy - d.dy⟩ else none
      else b.tiles ⟨k.col, k.row + d.dy⟩) = b.tiles k
    rw [if_neg hne, if_pos hr,
      if_pos ⟨hs1, hs2, (show (0:Int) ≤ k.row + d.dy - d.dy by omega),
        (show k.row + d.dy - d.dy < (b.height : Int) by omega)⟩,
      show (⟨c.col, k.row + d.dy - d.dy⟩ : Coord) = k from
        coord_ext hr.symm (show k.row + d.dy - d.dy = k.row by omega)]
  · have hdo : b.droppedOf c d = b.colDroppedCoord c.col d := by
      unfold Board.droppedOf
      rw [hvert]
      rfl
    show (b.slideColumn c.col d).2.2.deletions = {b.droppedOf c d}
    rw [hdo]
    rfl
  · intro k hl hin hstep
    have hr : k.col = c.col := (sameLine_vert hvert).mp hl
    have hsc : stepCoord k d = ⟨k.col, k.row + d.dy⟩ := by
      show (⟨k.col + d.dx, k.row + d.dy⟩ : Coord) = ⟨k.col, k.row + d.dy⟩
      rw [hdx0, add_zero]
    rw [hsc] at hstep
    rw [hsc]
    show (if k.col = c.col ∧ 0 ≤ k.row ∧ k.row < (b.height : Int) ∧
        0 ≤ k.row + d.dy ∧ k.row + d.dy < (b.height : Int)
      then some (⟨c.col, k.row + d.dy⟩ : Coord) else none)
      = some (⟨k.col, k.row + d.dy⟩ : Coord)
    rw [if_pos ⟨hr, hin.2.2.1, hin.2.2.2, hstep.2.2.1, hstep.2.2.2⟩]
    exact congrArg some (coord_ext hr.symm rfl)
  · intro k hnc
    show (if k.col = c.col ∧ 0 ≤ k.row ∧ k.row < (b.height : Int) ∧
        0 ≤ k.row + d.dy ∧ k.row + d.dy < (b.height : Int)
      then some (⟨c.col, k.row + d.dy⟩ : Coord) else none) = none
    apply if_neg
    intro hC
    apply hnc
    refine ⟨(sameLine_vert hvert).mpr hC.1, ⟨?_, ?_, hC.2.1, hC.2.2.1⟩, ?_⟩
    · rw [hC.1]
      exact hib.1
    · rw [hC.1]
      exact hib.2.1
    · rw [show stepCoord k d = (⟨k.col, k.row + d.dy⟩ : Coord) from by
        show (⟨k.col + d.dx, k.row + d.dy⟩ : Coord) = ⟨k.col, k.row + d.dy⟩
        rw [hdx0, add_zero]]
      exact ⟨by rw [hC.1]; exact hib.1, by rw [hC.1]; exact hib.2.1,
        hC.2.2.2.1, hC.2.2.2.2⟩

theorem sampleBoard_fresh :
    ∀ k t', sampleBoard.tiles k = some t' → t'.gems ≠ sampleSpare.gems := by
  intro k t' h
  obtain ⟨kc, kr⟩ := k
  simp only [sampleBoard, sampleTile] at h
  by_cases hb : 0 ≤ kc ∧ kc < 3 ∧ 0 ≤ kr ∧ kr < 3
  · rw [if_pos hb] at h
    injection h with h2
    subst h2
    intro hg
    have h1 : ((2 : Int) * (kc + 3 * kr)).toNat = (100 : Nat) := congrArg Prod.fst hg
    omega
  · rw [if_neg hb] at h
    cases h

/-- **C3 (amended)**: for every valid board, insert location valid for
the direction, and inserted tile whose gem pair differs from every tile
on the board, `slide_and_insert_tile` succeeds and behaves as claimed:
same dimensions, total tile dict, inserted tile at the insert location,
the far-edge tile ejected, the slid line moved one step in the travel
direction with everything else untouched, and a `BoardEdit` deleting
exactly the ejected cell and remapping exactly the surviving cells of
the line.  (The claim's unconditional totality over the inserted tile is
refuted by `slide_and_insert_gem_clash_cex`: a gem collision makes the
rebuilt board's constructor raise `ValueError`.) -/
theorem slide_and_insert_spec {b : Board} {c : Coord} {d : Direction} (tile : Tile)
    (hv : b.Valid) (hmem : c ∈ b.getValidInsertLocations d)
    (hfresh : ∀ k t', b.tiles k = some t' → t'.gems ≠ tile.gems) :
    SlideSpec b c d tile (b.slideAndInsertTile c d tile) := by
  obtain ⟨hib, hmc, hmr, hedge⟩ := mem_validInsert_facts hv.2.1 hv.1 hmem
  have hass : b.assertValidShiftAndInsert c d = .ok () := by
    simp only [Board.assertValidShiftAndInsert, Board.assertInBounds, bind, Except.bind]
    rw [if_pos hib]
    simp only []
    rw [if_neg (not_not_intro ⟨hmc, hmr⟩), if_neg (not_not_intro hmem)]
  rcases hedge with ⟨rfl, he⟩ | ⟨rfl, he⟩ | ⟨rfl, he⟩ | ⟨rfl, he⟩
  · apply slideAndInsert_col_spec tile hv hib hass rfl rfl (Or.inl ⟨rfl, he⟩) ?_ hfresh
    show b.inBounds (⟨c.col, (b.height : Int) - 1⟩ : Coord)
    have hh0 : 0 < b.height := hv.2.1
    exact ⟨hib.1, hib.2.1, (show (0:Int) ≤ (b.height : Int) - 1 by omega),
      (show (b.height : Int) - 1 < (b.height : Int) by omega)⟩
  · apply slideAndInsert_col_spec tile hv hib hass rfl rfl (Or.inr ⟨rfl, he⟩) ?_ hfresh
    show b.inBounds (⟨c.col, 0⟩ : Coord)
    have hh0 : 0 < b.height := hv.2.1
    exact ⟨hib.1, hib.2.1, le_refl (0 : Int),
      (show (0:Int) < (b.height : Int) by omega)⟩
  · apply slideAndInsert_row_spec tile hv hib hass rfl rfl (Or.inl ⟨rfl, he⟩) ?_ hfresh
    show b.inBounds (⟨(b.width : Int) - 1, c.row⟩ : Coord)
    have hw0 : 0 < b.width := hv.1
    exact ⟨(show (0:Int) ≤ (b.width : Int) - 1 by omega),
      (show (b.width : Int) - 1 < (b.width : Int) by omega), hib.2.2.1, hib.2.2.2⟩
  · apply slideAndInsert_row_spec tile hv hib hass rfl rfl (Or.inr ⟨rfl, he⟩) ?_ hfresh
    show b.inBounds (⟨0, c.row⟩ : Coord)
    have hw0 : 0 < b.width := hv.1
    exact ⟨le_refl (0 : Int), (show (0:Int) < (b.width : Int) by omega),
      hib.2.2.1, hib.2.2.2⟩

/-- **C3 (witness)**: the amended specification instantiated on the 3×3
sample board, inserting the fresh-gem spare at (0, 0) travelling RIGHT. -/
theorem slide_and_insert_spec_witness :
    SlideSpec sampleBoard ⟨0, 0⟩ .right sampleSpare
      (sampleBoard.slideAndInsertTile ⟨0, 0⟩ .right sampleSpare) :=
  slide_and_insert_spec sampleSpare sampleBoard_valid (by decide) sampleBoard_fresh

theorem sum_map_const (n k : Nat) : ((List.range n).map fun _ => k).sum = n * k := by
  induction n with
  | zero => simp
  | succ m ih =>
    rw [List.range_succ, List.map_append, List.sum_append]
    simp only [List.map_cons, List.map_nil, List.sum_cons, List.sum_nil]
    rw [ih]
    ring

theorem coordList_length (b : Board) : b.coordList.length = b.height * b.width := by
  unfold Board.coordList
  rw [List.length_flatMap]
  have h : (List.map (List.length ∘ fun r : Nat => (List.range b.width).map
      fun c : Nat => (⟨(c : Int), (r : Int)⟩ : Coord)) (List.range b.height))
      = (List.range b.height).map fun _ => b.width := by
    simp [Function.comp_def]
  rw [h, sum_map_const]

theorem neighbors_inBounds {b : Board}
    (htot : ∀ c, (b.tiles c).isSome = true ↔ b.inBounds c)
    {x y : Coord} (h : y ∈ b.neighbors x) : b.inBounds y := by
  unfold Board.neighbors at h
  cases hx : b.tiles x with
  | none =>
    rw [hx] at h
    cases h
  | some t =>
    rw [hx] at h
    obtain ⟨d, hd, hy⟩ := List.mem_filterMap.mp h
    simp only [] at hy
    cases hty : b.tiles ⟨x.col + d.dx, x.row + d.dy⟩ with
    | none =>
      rw [hty] at hy
      cases hy
    | some t2 =>
      rw [hty] at hy
      simp only [] at hy
      by_cases hf : d.flip ∈ t2.connectedDirections
      · rw [if_pos hf] at hy
        injection hy with hy
        subst hy
        exact (htot _).mp (by rw [hty]; rfl)
      · rw [if_neg hf] at hy
        cases hy

theorem neighbors_symm {b : Board} {x y : Coord} (h : y ∈ b.neighbors x) :
    x ∈ b.neighbors y := by
  have hdd : ∀ e : Direction, e.flip.dx = -e.dx ∧ e.flip.dy = -e.dy := by
    intro e
    cases e <;> exact ⟨by decide, by decide⟩
  have hff : ∀ e : Direction, e.flip.flip = e := by
    intro e
    cases e <;> decide
  have hall : ∀ e : Direction, e ∈ directionList := by
    intro e
    cases e <;> decide
  unfold Board.neighbors at h ⊢
  cases hx : b.tiles x with
  | none =>
    rw [hx] at h
    cases h
  | some tx =>
    rw [hx] at h
    obtain ⟨d, hd, hy⟩ := List.mem_filterMap.mp h
    have hdc : d ∈ tx.connectedDirections := by
      have h2 := List.mem_filter.mp hd
      simpa using h2.2
    simp only [] at hy
    cases hty : b.tiles ⟨x.col + d.dx, x.row + d.dy⟩ with
    | none =>
      rw [hty] at hy
      cases hy
    | some t2 =>
      rw [hty] at hy
      simp only [] at hy
      by_cases hf : d.flip ∈ t2.connectedDirections
      · rw [if_pos hf] at hy
        injection hy with hy
        subst hy
        rw [hty]
        refine List.mem_filterMap.mpr ⟨d.flip, ?_, ?_⟩
        · refine List.mem_filter.mpr ⟨hall d.flip, ?_⟩
          simpa using hf
        · simp only []
          have hstep : (⟨(⟨x.col + d.dx, x.row + d.dy⟩ : Coord).col + d.flip.dx,
              (⟨x.col + d.dx, x.row + d.dy⟩ : Coord).row + d.flip.dy⟩ : Coord) = x :=
            coord_ext (show x.col + d.dx + d.flip.dx = x.col from by
                rw [(hdd d).1]; ring)
              (show x.row + d.dy + d.flip.dy = x.row from by
                rw [(hdd d).2]; ring)
          rw [hstep, hx]
          simp only []
          rw [if_pos (by rw [hff d]; exact hdc)]
      · rw [if_neg hf] at hy
        cases hy

theorem pushNeighbors_mem_frontier (nbrs : List Coord) (frontier : List Coord)
    (reachable seen : Finset Coord) (x : Coord) :
    x ∈ (pushNeighbors nbrs frontier reachable seen).1 ↔
      x ∈ frontier ∨ (x ∈ nbrs ∧ x ∉ reachable ∧ x ∉ seen) := by
  induction nbrs generalizing frontier seen with
  | nil =>
    simp only [pushNeighbors, List.not_mem_nil, false_and, or_false]
  | cons y ys ih =>
    simp only [pushNeighbors]
    by_cases hc : y ∉ reachable ∧ y ∉ seen
    · rw [if_pos hc, ih]
      simp only [List.mem_cons, Finset.mem_insert, not_or]
      constructor
      · rintro ((rfl | hf) | ⟨hys, hr, hxy, hs⟩)
        · exact Or.inr ⟨Or.inl rfl, hc.1, hc.2⟩
        · exact Or.inl hf
        · exact Or.inr ⟨Or.inr hys, hr, hs⟩
      · rintro (hf | ⟨(rfl | hys), hr, hs⟩)
        · exact Or.inl (Or.inr hf)
        · exact Or.inl (Or.inl rfl)
        · by_cases hxy : x = y
          · exact Or.inl (Or.inl hxy)
          · exact Or.inr ⟨hys, hr, hxy, hs⟩
    · rw [if_neg hc, ih]
      have hy : y ∈ reachable ∨ y ∈ seen := by
        by_contra hcon
        push_neg at hcon
        exact hc ⟨hcon.1, hcon.2⟩
      simp only [List.mem_cons]
      constructor
      · rintro (hf | ⟨hys, hr, hs⟩)
        · exact Or.inl hf
        · exact Or.inr ⟨Or.inr hys, hr, hs⟩
      · rintro (hf | ⟨(rfl | hys), hr, hs⟩)
        · exact Or.inl hf
        · cases hy with
          | inl h2 => exact absurd h2 hr
          | inr h2 => exact absurd h2 hs
        · exact Or.inr ⟨hys, hr, hs⟩

theorem pushNeighbors_mem_seen (nbrs : List Coord) (frontier : List Coord)
    (reachable seen : Finset Coord) (x : Coord) :
    x ∈ (pushNeighbors nbrs frontier reachable seen).2 ↔
      x ∈ seen ∨ (x ∈ nbrs ∧ x ∉ reachable ∧ x ∉ seen) := by
  induction nbrs generalizing frontier seen with
  | nil =>
    simp only [pushNeighbors, List.not_mem_nil, false_and, or_false]
  | cons y ys ih =>
    simp only [pushNeighbors]
    by_cases hc : y ∉ reachable ∧ y ∉ seen
    · rw [if_pos hc, ih]
      simp only [List.mem_cons, Finset.mem_insert, not_or]
      constructor
      · rintro ((rfl | hs0) | ⟨hys, hr, hxy, hs⟩)
        · exact Or.inr ⟨Or.inl rfl, hc.1, hc.2⟩
        · exact Or.inl hs0
        · exact Or.inr ⟨Or.inr hys, hr, hs⟩
      · rintro (hs0 | ⟨(rfl | hys), hr, hs⟩)
        · exact Or.inl (Or.inr hs0)
        · exact Or.inl (Or.inl rfl)
        · by_cases hxy : x = y
          · exact Or.inl (Or.inl hxy)
          · exact Or.inr ⟨hys, hr, hxy, hs⟩
    · rw [if_neg hc, ih]
      have hy : y ∈ reachable ∨ y ∈ seen := by
        by_contra hcon
        push_neg at hcon
        exact hc ⟨hcon.1, hcon.2⟩
      simp only [List.mem_cons]
      constructor
      · rintro (hs0 | ⟨hys, hr, hs⟩)
        · exact Or.inl hs0
        · exact Or.inr ⟨Or.inr hys, hr, hs⟩
      · rintro (hs0 | ⟨(rfl | hys), hr, hs⟩)
        · exact Or.inl hs0
        · cases hy with
          | inl h2 => exact absurd h2 hr
          | inr h2 => exact absurd h2 hs
        · exact Or.inr ⟨hys, hr, hs⟩

theorem pushNeighbors_card (nbrs : List Coord) (frontier : List Coord)
    (reachable seen : Finset Coord) :
    (pushNeighbors nbrs frontier reachable seen).1.length + seen.card =
      frontier.length + (pushNeighbors nbrs frontier reachable seen).2.card ∧
    frontier.length ≤ (pushNeighbors nbrs frontier reachable seen).1.length := by
  induction nbrs generalizing frontier seen with
  | nil =>
    exact ⟨rfl, Nat.le_refl _⟩
  | cons y ys ih =>
    simp only [pushNeighbors]
    by_cases hc : y ∉ reachable ∧ y ∉ seen
    · rw [if_pos hc]
      obtain ⟨ih1, ih2⟩ := ih (y :: frontier) (insert y seen)
      rw [Finset.card_insert_of_not_mem hc.2] at ih1
      simp only [List.length_cons] at ih1 ih2
      omega
    · rw [if_neg hc]
      exact ih frontier seen

/-- Transitive-reflexive closure of the mutual-connectivity adjacency of
`Board._neighbors`; `reachable_destinations` computes exactly this set. -/
def Board.Reaches (b : Board) (x y : Coord) : Prop :=
  Relation.ReflTransGen (fun a c => c ∈ b.neighbors a) x y

theorem dfs_sound {b : Board} (start : Coord) :
    ∀ (fuel : Nat) (frontier : List Coord) (reachable seen : Finset Coord),
      (∀ x ∈ frontier, b.Reaches start x) →
      (∀ x ∈ reachable, b.Reaches start x) →
      ∀ x ∈ dfs b fuel frontier reachable seen, b.Reaches start x := by
  intro fuel
  induction fuel with
  | zero =>
    intro frontier reachable seen hf hr x hx
    cases frontier with
    | nil => exact hr x hx
    | cons cur rest => exact hr x hx
  | succ n ih =>
    intro frontier reachable seen hf hr x hx
    cases frontier with
    | nil => exact hr x hx
    | cons cur rest =>
      rw [show dfs b (n + 1) (cur :: rest) reachable seen =
          dfs b n (pushNeighbors (b.neighbors cur) rest (insert cur reachable) seen).1
            (insert cur reachable)
            (pushNeighbors (b.neighbors cur) rest (insert cur reachable) seen).2
          from rfl] at hx
      refine ih _ _ _ ?_ ?_ x hx
      · intro z hz
        rw [pushNeighbors_mem_frontier] at hz
        cases hz with
        | inl h => exact hf z (List.mem_cons_of_mem _ h)
        | inr h =>
          exact Relation.ReflTransGen.tail (hf cur (List.mem_cons_self _ _)) h.1
      · intro z hz
        rw [Finset.mem_insert] at hz
        cases hz with
        | inl h =>
          subst h
          exact hf z (List.mem_cons_self _ _)
        | inr h => exact hr z h

theorem dfs_main {b : Board}
    (htot : ∀ c, (b.tiles c).isSome = true ↔ b.inBounds c) :
    ∀ (fuel : Nat) (frontier : List Coord) (reachable seen : Finset Coord),
      2 * (b.width * b.height) + frontier.length ≤ fuel + 2 * seen.card →
      (∀ y ∈ seen, b.inBounds y) →
      (∀ y ∈ seen, y ∈ reachable ∨ y ∈ frontier) →
      (∀ x ∈ reachable, ∀ y ∈ b.neighbors x, y ∈ reachable ∨ y ∈ frontier) →
      (∀ x ∈ dfs b fuel frontier reachable seen, ∀ y ∈ b.neighbors x,
          y ∈ dfs b fuel frontier reachable seen) ∧
      (∀ x ∈ frontier, x ∈ dfs b fuel frontier reachable seen) ∧
      (∀ x ∈ reachable, x ∈ dfs b fuel frontier reachable seen) := by
  intro fuel
  induction fuel with
  | zero =>
    intro frontier reachable seen hfuel hsin hssub hJ
    cases frontier with
    | cons cur rest =>
      exfalso
      have hcard : seen.card ≤ b.width * b.height := by
        have hsub : seen ⊆ b.coordList.toFinset := by
          intro y hy
          rw [List.mem_toFinset]
          exact mem_coordList.mpr (hsin y hy)
        have h2 := Finset.card_le_card hsub
        rwa [List.toFinset_card_of_nodup (coordList_nodup b), coordList_length,
          Nat.mul_comm] at h2
      simp only [List.length_cons] at hfuel
      omega
    | nil =>
      refine ⟨?_, ?_, ?_⟩
      · intro x hx y hy
        cases hJ x hx y hy with
        | inl h => exact h
        | inr h => cases h
      · intro x hx
        cases hx
      · intro x hx
        exact hx
  | succ n ih =>
    intro frontier reachable seen hfuel hsin hssub hJ
    cases frontier with
    | nil =>
      refine ⟨?_, ?_, ?_⟩
      · intro x hx y hy
        cases hJ x hx y hy with
        | inl h => exact h
        | inr h => cases h
      · intro x hx
        cases hx
      · intro x hx
        exact hx
    | cons cur rest =>
      have hstep : dfs b (n + 1) (cur :: rest) reachable seen =
          dfs b n (pushNeighbors (b.neighbors cur) rest (insert cur reachable) seen).1
            (insert cur reachable)
            (pushNeighbors (b.neighbors cur) rest (insert cur reachable) seen).2 := rfl
      have hA3 := pushNeighbors_card (b.neighbors cur) rest (insert cur reachable) seen
      have hfuel' : 2 * (b.width * b.height) +
          (pushNeighbors (b.neighbors cur) rest (insert cur reachable) seen).1.length ≤
          n + 2 * (pushNeighbors (b.neighbors cur) rest
            (insert cur reachable) seen).2.card := by
        simp only [List.length_cons] at hfuel
        omega
      have hsin' : ∀ y ∈ (pushNeighbors (b.neighbors cur) rest
          (insert cur reachable) seen).2, b.inBounds y := by
        intro y hy
        rw [pushNeighbors_mem_seen] at hy
        cases hy with
        | inl h => exact hsin y h
        | inr h => exact neighbors_inBounds htot h.1
      have hssub' : ∀ y ∈ (pushNeighbors (b.neighbors cur) rest
          (insert cur reachable) seen).2,
          y ∈ insert cur reachable ∨
            y ∈ (pushNeighbors (b.neighbors cur) rest (insert cur reachable) seen).1 := by
        intro y hy
        rw [pushNeighbors_mem_seen] at hy
        cases hy with
        | inl h =>
          cases hssub y h with
          | inl h2 => exact Or.inl (Finset.mem_insert_of_mem h2)
          | inr h2 =>
            cases List.mem_cons.mp h2 with
            | inl h3 => exact Or.inl (h3 ▸ Finset.mem_insert_self _ _)
            | inr h3 =>
              exact Or.inr (by rw [pushNeighbors_mem_frontier]; exact Or.inl h3)
        | inr h =>
          exact Or.inr (by rw [pushNeighbors_mem_frontier]; exact Or.inr h)
      have hJ' : ∀ x ∈ insert cur reachable, ∀ y ∈ b.neighbors x,
          y ∈ insert cur reachable ∨
            y ∈ (pushNeighbors (b.neighbors cur) rest (insert cur reachable) seen).1 := by
        intro x hx y hy
        rw [Finset.mem_insert] at hx
        cases hx with
        | inl h =>
          subst h
          by_cases hyr : y ∈ insert x reachable
          · exact Or.inl hyr
          · by_cases hys : y ∈ seen
            · cases hssub y hys with
              | inl h2 => exact Or.inl (Finset.mem_insert_of_mem h2)
              | inr h2 =>
                cases List.mem_cons.mp h2 with
                | inl h3 => exact Or.inl (h3 ▸ Finset.mem_insert_self _ _)
                | inr h3 =>
                  exact Or.inr (by rw [pushNeighbors_mem_frontier]; exact Or.inl h3)
            · exact Or.inr (by
                rw [pushNeighbors_mem_frontier]
                exact Or.inr ⟨hy, hyr, hys⟩)
        | inr h =>
          cases hJ x h y hy with
          | inl h2 => exact Or.inl (Finset.mem_insert_of_mem h2)
          | inr h2 =>
            cases List.mem_cons.mp h2 with
            | inl h3 => exact Or.inl (h3 ▸ Finset.mem_insert_self _ _)
            | inr h3 =>
              exact Or.inr (by rw [pushNeighbors_mem_frontier]; exact Or.inl h3)
      obtain ⟨ihc, ihf, ihr⟩ := ih
        (pushNeighbors (b.neighbors cur) rest (insert cur reachable) seen).1
        (insert cur reachable)
        (pushNeighbors (b.neighbors cur) rest (insert cur reachable) seen).2
        hfuel' hsin' hssub' hJ'
      refine ⟨?_, ?_, ?_⟩
      · intro x hx y hy
        rw [hstep] at hx ⊢
        exact ihc x hx y hy
      · intro x hx
        rw [hstep]
        cases List.mem_cons.mp hx with
        | inl h => exact ihr x (h ▸ Finset.mem_insert_self _ _)
        | inr h =>
          exact ihf x (by rw [pushNeighbors_mem_frontier]; exact Or.inl h)
      · intro x hx
        rw [hstep]
        exact ihr x (Finset.mem_insert_of_mem hx)

theorem reachableDestinations_ok {b : Board} {c : Coord} {s : Finset Coord}
    (h : b.reachableDestinations c = .ok s) :
    b.inBounds c ∧ s = dfs b (2 * b.width * b.height + 1) [c] ∅ ∅ := by
  simp only [Board.reachableDestinations, Board.assertInBounds, bind, Except.bind] at h
  by_cases hin : b.inBounds c
  · rw [if_pos hin] at h
    simp only [] at h
    injection h with h
    exact ⟨hin, h.symm⟩
  · rw [if_neg hin] at h
    simp only [] at h
    cases h

theorem reachableDestinations_ok_of_inBounds {b : Board} {c : Coord}
    (hin : b.inBounds c) :
    b.reachableDestinations c = .ok (dfs b (2 * b.width * b.height + 1) [c] ∅ ∅) := by
  simp only [Board.reachableDestinations, Board.assertInBounds, bind, Except.bind]
  rw [if_pos hin]

theorem dfs_char {b : Board} (hv : b.Valid) {c x : Coord} (hin : b.inBounds c) :
    x ∈ dfs b (2 * b.width * b.height + 1) [c] ∅ ∅ ↔ b.Reaches c x := by
  obtain ⟨hw0, hh0, htot, hgem⟩ := hv
  obtain ⟨hclosed, hfront, hreach⟩ :=
    dfs_main htot (2 * b.width * b.height + 1) [c] ∅ ∅
      (by
        simp only [List.length_cons, List.length_nil, Finset.card_empty]
        have harea : 2 * b.width * b.height = 2 * (b.width * b.height) :=
          Nat.mul_assoc 2 _ _
        omega)
      (fun y hy => absurd hy (Finset.not_mem_empty y))
      (fun y hy => absurd hy (Finset.not_mem_empty y))
      (fun z hz => absurd hz (Finset.not_mem_empty z))
  constructor
  · intro hx
    refine dfs_sound c _ [c] ∅ ∅ ?_ ?_ x hx
    · intro z hz
      cases List.mem_cons.mp hz with
      | inl h =>
        subst h
        exact Relation.ReflTransGen.refl
      | inr h => cases h
    · intro z hz
      exact absurd hz (Finset.not_mem_empty z)
  · intro hx
    induction hx with
    | refl => exact hfront c (List.mem_cons_self _ _)
    | tail hab hbc ihstep => exact hclosed _ ihstep _ hbc

theorem reaches_symm {b : Board} {x y : Coord} (h : b.Reaches x y) : b.Reaches y x := by
  induction h with
  | refl => exact Relation.ReflTransGen.refl
  | tail hab hbc ih => exact Relation.ReflTransGen.head (neighbors_symm hbc) ih

/-- **C4**: on a valid board, `reachable_destinations` contains its
(in-bounds) start coordinate, and reachability is symmetric: if `d` is
among the reachable destinations of `c` then `c` is among the reachable
destinations of `d` — because an edge between adjacent cells exists only
when the connected-direction sets of both tiles point at each other, so the
step relation of the depth-first search is symmetric. -/
theorem reachability (b : Board) (hv : b.Valid) :
    (∀ c, b.inBounds c → ∃ s, b.reachableDestinations c = .ok s ∧ c ∈ s) ∧
    (∀ c d s s', b.reachableDestinations c = .ok s →
      b.reachableDestinations d = .ok s' → d ∈ s → c ∈ s') := by
  constructor
  · intro c hin
    exact ⟨_, reachableDestinations_ok_of_inBounds hin,
      (dfs_char hv hin).mpr Relation.ReflTransGen.refl⟩
  · intro c d s s' hc hd hds
    obtain ⟨hcin, rfl⟩ := reachableDestinations_ok hc
    obtain ⟨hdin, rfl⟩ := reachableDestinations_ok hd
    exact (dfs_char hv hdin).mpr (reaches_symm ((dfs_char hv hcin).mp hds))

/-- **C4 (witness)**: the containment half instantiated on the 3×3
sample board at its corner (0, 0). -/
theorem reachability_witness :
    ∃ s, sampleBoard.reachableDestinations ⟨0, 0⟩ = .ok s ∧ (⟨0, 0⟩ : Coord) ∈ s :=
  (reachability sampleBoard sampleBoard_valid).1 ⟨0, 0⟩ (by decide)

end Maze
